import Mathlib

/-!
Verification of the node-disk-cache index and eviction engine.

The development shallowly embeds the `NodeDiskCache` class: the in-memory
index is a list of key/entry pairs in insertion order (a JS `Map` with
delete-then-set used to move a key to the end), `currentSize` is the byte
counter, `fileNameIndex` the identifier counter.  External effects are made
explicit: artifact writers and removers are represented by success oracles,
timers by an explicit handle record (`clearTimeout` kills a handle for good,
`refresh` re-arms only a live handle), the disk-usage probe by an optional
total/available pair, and wall-clock time by a `now` field.  Two history
fields record what happened on the artifact store: `removed` logs the file
identifiers of successfully removed artifacts, `assignedLog` logs every file
identifier handed out by the counter.
-/

namespace DiskCache

/-- A `setTimeout` handle: `duration` is the delay it was armed with,
`firesAt` the absolute time it is due, and `alive` whether the timer is
still armed.  `clearTimeout` sets `alive := false`, after which Node's
`refresh()` is a no-op (the callback slot is nulled and the idle timeout
is invalidated), so a cleared handle can never fire again. -/
structure TimerHandle where
  duration : Nat
  firesAt : Nat
  alive : Bool
deriving DecidableEq, Repr

/-- One index entry (`CacheItem` in the source): artifact identifier,
last known artifact size, optional timer handle, the per-entry
refresh-on-read flag, and the optional related-key list. -/
structure CacheItem where
  fileName : Nat
  fileSize : Nat
  timeout : Option TimerHandle
  refreshTimeoutWhenGet : Bool
  related : Option (List String)
deriving DecidableEq, Repr

/-- The mutable state of one `NodeDiskCache` instance, plus the two
history fields described in the file header. -/
structure CacheState where
  items : List (String × CacheItem)
  currentSize : Int
  fileNameIndex : Nat
  now : Nat
  removed : List Nat
  assignedLog : List Nat
deriving DecidableEq, Repr

/-- The state of a freshly constructed cache: empty index, zero size,
counter at zero (`fs.emptyDirSync` wipes the directory). -/
def initialState : CacheState :=
  { items := [], currentSize := 0, fileNameIndex := 0, now := 0,
    removed := [], assignedLog := [] }

/-- `Map.get`: first (and, for map-like states, only) entry for a key. -/
def lookupKey (l : List (String × CacheItem)) (k : String) : Option CacheItem :=
  match l with
  | [] => none
  | e :: rest => if e.1 = k then some e.2 else lookupKey rest k

/-- `Map.delete`: drop the entry (all entries) for a key. -/
def eraseKey (l : List (String × CacheItem)) (k : String) :
    List (String × CacheItem) :=
  match l with
  | [] => []
  | e :: rest => if e.1 = k then eraseKey rest k else e :: eraseKey rest k

/-- The keys of the index, in order. -/
def keysOf (l : List (String × CacheItem)) : List String := l.map Prod.fst

/-- Keys are pairwise distinct (always true of a JS `Map`). -/
def nodupKeys (l : List (String × CacheItem)) : Prop := (keysOf l).Nodup

/-- Sum of the recorded artifact sizes of a list of entries. -/
def sizeSum (l : List (String × CacheItem)) : Int :=
  (l.map (fun e => (e.2.fileSize : Int))).sum

/-- Sum of the sizes of a list of bare entries. -/
def sizeSumC (l : List CacheItem) : Int :=
  (l.map (fun c => (c.fileSize : Int))).sum

/-- The bookkeeping invariant: `currentSize` is the sum of the recorded
sizes of all indexed entries. -/
def sizeInv (s : CacheState) : Prop := s.currentSize = sizeSum s.items

/-- `clearTimeout` on an entry's handle: the handle object stays referenced
by the entry, but it is dead for good. -/
def clearTimer (c : CacheItem) : CacheItem :=
  { c with timeout := c.timeout.map (fun t => { t with alive := false }) }

/-- Kill the timer of the entry for `k`, in place (the handle is shared
between the local variable `cache` and the map entry). -/
def clearEntryTimer (l : List (String × CacheItem)) (k : String) :
    List (String × CacheItem) :=
  l.map (fun e => if e.1 = k then (e.1, clearTimer e.2) else e)

/-- `timeout.refresh()`: re-arms a live handle for its original duration;
a cleared handle is left untouched (Node invalidates it). -/
def refreshHandle (now : Nat) (t : TimerHandle) : TimerHandle :=
  if t.alive then { t with firesAt := now + t.duration } else t

/-- `_prepareWrite` (src lines 104-127).  `writeOk` is the outcome of the
supplied artifact writer together with the subsequent `stat` (no state is
touched between the two); `newSize` is the stat'ed size on success.  On a
previously absent key the identifier counter is consumed before the write
(`this._fileNameIndex++` inside the `??` default).  A failed write raises
after the old timer was cleared but before any size or index mutation. -/
def prepareWrite (s : CacheState) (key : String) (writeOk : Bool)
    (newSize : Nat) (timeout : Nat) (refreshTimeoutWhenGet : Bool)
    (related : Option (List String)) : CacheState × Bool :=
  match lookupKey s.items key with
  | some cache =>
    let s₁ : CacheState := { s with items := clearEntryTimer s.items key }
    if writeOk then
      let cache₁ : CacheItem :=
        { fileName := cache.fileName
          fileSize := newSize
          timeout := if 0 < timeout then some ⟨timeout, s.now + timeout, true⟩
                     else (clearTimer cache).timeout
          refreshTimeoutWhenGet := refreshTimeoutWhenGet
          related := related }
      ({ s₁ with
          items := eraseKey s₁.items key ++ [(key, cache₁)]
          currentSize := s.currentSize - (cache.fileSize : Int) + (newSize : Int) },
        true)
    else (s₁, false)
  | none =>
    let s₁ : CacheState :=
      { s with fileNameIndex := s.fileNameIndex + 1
               assignedLog := s.assignedLog ++ [s.fileNameIndex] }
    if writeOk then
      let cache₁ : CacheItem :=
        { fileName := s.fileNameIndex
          fileSize := newSize
          timeout := if 0 < timeout then some ⟨timeout, s.now + timeout, true⟩
                     else none
          refreshTimeoutWhenGet := refreshTimeoutWhenGet
          related := related }
      ({ s₁ with
          items := s₁.items ++ [(key, cache₁)]
          currentSize := s.currentSize + (newSize : Int) },
        true)
    else (s₁, false)

/-- `set` (src lines 138-151): funnels into `_prepareWrite` with a
buffer/string/stream writer. -/
def set (s : CacheState) (key : String) (writeOk : Bool) (newSize : Nat)
    (timeout : Nat) (refreshTimeoutWhenGet : Bool)
    (related : Option (List String)) : CacheState × Bool :=
  prepareWrite s key writeOk newSize timeout refreshTimeoutWhenGet related

/-- `move` (src lines 161-164): funnels into `_prepareWrite` with an
`fs.move` writer. -/
def move (s : CacheState) (key : String) (writeOk : Bool) (newSize : Nat)
    (timeout : Nat) (refreshTimeoutWhenGet : Bool)
    (related : Option (List String)) : CacheState × Bool :=
  prepareWrite s key writeOk newSize timeout refreshTimeoutWhenGet related

/-- `get` (src lines 195-208).  Returns the artifact identifier that would
be read.  When the entry's flag is set and a handle is referenced (truthy
`cache.timeout`), the handle is refreshed and the entry moved to the end
of the index via delete-then-set. -/
def get (s : CacheState) (key : String) : CacheState × Option Nat :=
  match lookupKey s.items key with
  | some cache =>
    if cache.refreshTimeoutWhenGet && cache.timeout.isSome then
      let cache' : CacheItem :=
        { cache with timeout := cache.timeout.map (refreshHandle s.now) }
      ({ s with items := eraseKey s.items key ++ [(key, cache')] },
        some cache.fileName)
    else (s, some cache.fileName)
  | none => (s, none)

/-- `getStream` (src lines 213-226): identical index/timer effect to
`get`, returning a stream over the same artifact. -/
def getStream (s : CacheState) (key : String) : CacheState × Option Nat :=
  match lookupKey s.items key with
  | some cache =>
    if cache.refreshTimeoutWhenGet && cache.timeout.isSome then
      let cache' : CacheItem :=
        { cache with timeout := cache.timeout.map (refreshHandle s.now) }
      ({ s with items := eraseKey s.items key ++ [(key, cache')] },
        some cache.fileName)
    else (s, some cache.fileName)
  | none => (s, none)

/-- `has` (src lines 231-233). -/
def has (s : CacheState) (key : String) : Bool :=
  (lookupKey s.items key).isSome

/-- One pending step of the recursive `delete` (src lines 239-252): either
a `delete(key)` call still to enter, or the tail of an entered call — the
artifact removal and size decrement of an already unindexed entry. -/
inductive DelTask where
  | del (k : String)
  | fin (c : CacheItem)
deriving DecidableEq, Repr

/-- The related keys of an entry (`_cache.related`, absent = none). -/
def relList (c : CacheItem) : List String := c.related.getD []

/-- The entries whose unindexing already happened but whose artifact
removal is still pending on a task stack. -/
def pendFinish (tasks : List DelTask) : List CacheItem :=
  tasks.filterMap (fun t =>
    match t with
    | DelTask.fin c => some c
    | DelTask.del _ => none)

/-- Termination measure: total budget of the index; erasing an indexed
entry pays for the tasks its deletion spawns. -/
def taskMeasure (l : List (String × CacheItem)) : Nat :=
  l.foldr (fun e acc => 1 + (relList e.2).length + acc) 0

/-- Executes a stack of pending deletion steps, linearising the recursion
of `delete`: a present key is first unindexed (its timer handle is dropped
with its entry), then its related keys are deleted recursively, and only
then is its own artifact removed (`ok` oracle) and `currentSize`
decremented.  A removal failure propagates out of every enclosing
(recursive) `delete` frame, abandoning the rest of the stack; the flag
reports success.  Deleting an absent key is a no-op. -/
def runDelete (ok : Nat → Bool) (s : CacheState) (tasks : List DelTask) :
    CacheState × Bool :=
  match tasks with
  | [] => (s, true)
  | DelTask.del k :: rest =>
    match h : lookupKey s.items k with
    | none => runDelete ok s rest
    | some c =>
      runDelete ok { s with items := eraseKey s.items k }
        ((relList c).map DelTask.del ++ (DelTask.fin c :: rest))
  | DelTask.fin c :: rest =>
    if ok c.fileName then
      runDelete ok
        { s with removed := s.removed ++ [c.fileName]
                 currentSize := s.currentSize - (c.fileSize : Int) } rest
    else (s, false)
termination_by (taskMeasure s.items, tasks.length)
decreasing_by
  · apply Prod.Lex.right
    simp
  · apply Prod.Lex.left
    have aux_le : ∀ (l : List (String × CacheItem)),
        taskMeasure (eraseKey l k) ≤ taskMeasure l := by
      intro l
      induction l with
      | nil => simp [eraseKey]
      | cons e r ih =>
        simp only [taskMeasure] at ih ⊢
        by_cases he : e.1 = k <;> simp [eraseKey, he] <;> omega
    have aux_lt : ∀ (l : List (String × CacheItem)) (c : CacheItem),
        lookupKey l k = some c → taskMeasure (eraseKey l k) < taskMeasure l := by
      intro l
      induction l with
      | nil => intro c hc; simp [lookupKey] at hc
      | cons e r ih =>
        intro c hc
        by_cases he : e.1 = k
        · have h1 := aux_le r
          simp only [taskMeasure] at h1 ⊢
          simp [eraseKey, he]
          omega
        · simp [lookupKey, he] at hc
          have h2 := ih c hc
          simp only [taskMeasure] at h2 ⊢
          simp [eraseKey, he]
          omega
    exact aux_lt _ _ h
  · apply Prod.Lex.right
    simp

/-- `delete` (src lines 239-252).  The optional `_cache` argument of the
source is always the current map entry of `key` at call time (callers pass
either nothing or the entry just yielded by live map iteration), so it is
resolved by lookup here. -/
def delete (ok : Nat → Bool) (s : CacheState) (key : String) :
    CacheState × Bool :=
  runDelete ok s [DelTask.del key]

/-- The all-removals-succeed oracle. -/
def allOk : Nat → Bool := fun _ => true

/-- Loop body of `empty` (src lines 257-269): live iteration over the
index; each entry is unindexed and its timer cleared, then its artifact
removal is attempted; on success `currentSize` is decremented, on failure
the error is logged and the loop continues — the decrement is skipped. -/
def emptyGo (ok : Nat → Bool) (s : CacheState)
    (l : List (String × CacheItem)) : CacheState :=
  match l with
  | [] => s
  | (k, c) :: rest =>
    let s₁ : CacheState := { s with items := eraseKey s.items k }
    if ok c.fileName then
      emptyGo ok
        { s₁ with removed := s₁.removed ++ [c.fileName]
                  currentSize := s₁.currentSize - (c.fileSize : Int) } rest
    else emptyGo ok s₁ rest

/-- `empty` (src lines 257-269). -/
def empty (ok : Nat → Bool) (s : CacheState) : CacheState :=
  emptyGo ok s s.items

/-- `destroy` (src lines 274-277): stops the cleaner interval and empties
the cache.  It never touches the static `_cacheDirList` registry. -/
def destroy (ok : Nat → Bool) (s : CacheState) : CacheState :=
  empty ok s

/-- The shared eviction walk (constructor, src lines 56-61 and 79-84):
live `for..of` iteration over the index — modelled as the key list at tick
start, skipping keys no longer present (a JS map iterator never yields a
deleted entry) — deleting while `currentSize > downTo`, breaking as soon
as the target is reached.  A deletion failure is caught by the
surrounding `try` of the tick, ending the walk with the partial state. -/
def evictWalk (ok : Nat → Bool) (downTo : ℚ) (s : CacheState)
    (keys : List String) : CacheState :=
  match keys with
  | [] => s
  | k :: rest =>
    if (lookupKey s.items k).isSome then
      if downTo < (s.currentSize : ℚ) then
        match delete ok s k with
        | (s', true) => evictWalk ok downTo s' rest
        | (s', false) => s'
      else s
    else evictWalk ok downTo s rest

/-- One tick of the absolute-ceiling cleaner (src lines 48-66): when
`currentSize > upLimit`, walk down to `upLimit * (1 - cleanAmount)` with
`cleanAmount = min (options.cleanAmount ?? 0.1) 1`. -/
def evictionTickLimit (ok : Nat → Bool) (volumeUpLimit : ℚ)
    (cleanAmountOpt : Option ℚ) (s : CacheState) : CacheState :=
  let cleanAmount := min (cleanAmountOpt.getD (1 / 10)) 1
  let downTo := volumeUpLimit * (1 - cleanAmount)
  if volumeUpLimit < (s.currentSize : ℚ) then
    evictWalk ok downTo s (keysOf s.items)
  else s

/-- One tick of the available-space-ratio cleaner (src lines 67-93):
`probe` is the result of `diskusage.check` as a `(total, available)` pair,
`none` on probe failure (logged, tick skipped).  When
`available / total < 1 - upLimitRate`, walk down to
`currentSize - total * upLimitRate * cleanAmount`. -/
def evictionTickRate (ok : Nat → Bool) (probe : Option (ℚ × ℚ))
    (volumeUpLimitRate : ℚ) (cleanAmountOpt : Option ℚ) (s : CacheState) :
    CacheState :=
  match probe with
  | none => s
  | some (total, available) =>
    let upLimitRate := min volumeUpLimitRate 1
    let downLimitRate := 1 - upLimitRate
    let cleanAmount := min (cleanAmountOpt.getD (1 / 10)) 1
    if available / total < downLimitRate then
      evictWalk ok ((s.currentSize : ℚ) - total * upLimitRate * cleanAmount)
        s (keysOf s.items)
    else s

/-- The recurring ratio cleaner: each interval tick gets its own probe
result and removal oracle; no tick outcome stops the interval. -/
def engineRateRun (volumeUpLimitRate : ℚ) (cleanAmountOpt : Option ℚ)
    (s : CacheState) (ticks : List (Option (ℚ × ℚ) × (Nat → Bool))) :
    CacheState :=
  match ticks with
  | [] => s
  | (probe, ok) :: rest =>
    engineRateRun volumeUpLimitRate cleanAmountOpt
      (evictionTickRate ok probe volumeUpLimitRate cleanAmountOpt s) rest

/-- Which cleaner the constructor installs (src lines 48 and 67):
`volumeUpLimit > 0` wins, else `volumeUpLimitRate > 0`, else none
(an absent option behaves as `undefined > 0 = false`). -/
inductive EvictionPolicy where
  | limit (volumeUpLimit : ℚ)
  | rate (volumeUpLimitRate : ℚ)
  | off
deriving DecidableEq, Repr

/-- Constructor policy choice. -/
def choosePolicy (volumeUpLimit volumeUpLimitRate : Option ℚ) :
    EvictionPolicy :=
  if 0 < volumeUpLimit.getD 0 then EvictionPolicy.limit (volumeUpLimit.getD 0)
  else if 0 < volumeUpLimitRate.getD 0 then
    EvictionPolicy.rate (volumeUpLimitRate.getD 0)
  else EvictionPolicy.off

/-- One item of a `setGroup` batch (src lines 178-190); `writeOk` and
`newSize` stand for its writer's outcome as in `prepareWrite`.  Whether
the item goes through `set` or `move` does not change the index effect. -/
structure GroupItem where
  key : String
  writeOk : Bool
  newSize : Nat
  timeout : Nat
  refreshTimeoutWhenGet : Bool
deriving DecidableEq, Repr

/-- The `setGroup` loop: items are written in order, every one with the
full key list of the batch as its `related`; the first failure aborts the
remaining items and propagates. -/
def setGroupGo (related : List String) (s : CacheState)
    (items : List GroupItem) : CacheState × Bool :=
  match items with
  | [] => (s, true)
  | it :: rest =>
    match prepareWrite s it.key it.writeOk it.newSize it.timeout
        it.refreshTimeoutWhenGet (some related) with
    | (s', true) => setGroupGo related s' rest
    | (s', false) => (s', false)

/-- `setGroup` (src lines 178-190): `related = items.map(item => item.key)`
— the full batch key list. -/
def setGroup (s : CacheState) (items : List GroupItem) : CacheState × Bool :=
  setGroupGo (items.map GroupItem.key) s items

/-- The firing of the expiration timer armed for `key` (src line 123):
only a live, due handle fires; the callback runs `delete(key, cache)` and
logs (swallows) a removal failure. -/
def fireTimer (ok : Nat → Bool) (s : CacheState) (key : String) :
    CacheState :=
  match lookupKey s.items key with
  | some c =>
    match c.timeout with
    | some t =>
      if t.alive && t.firesAt ≤ s.now then (delete ok s key).1 else s
    | none => s
  | none => s

/-- Wall-clock time passing. -/
def advanceTime (s : CacheState) (ms : Nat) : CacheState :=
  { s with now := s.now + ms }

/-- The events that can touch a cache without an explicit `set`, `move`,
`delete`, eviction tick, `empty` or `destroy`: reads and the passage of
time (with any due expiration timers). -/
inductive Op where
  | get (k : String)
  | getStream (k : String)
  | advance (ms : Nat)
  | fire (k : String)
deriving DecidableEq, Repr

/-- Apply one event. -/
def applyOp (ok : Nat → Bool) (s : CacheState) (op : Op) : CacheState :=
  match op with
  | Op.get k => (get s k).1
  | Op.getStream k => (getStream s k).1
  | Op.advance ms => advanceTime s ms
  | Op.fire k => fireTimer ok s k

/-- Apply a sequence of events. -/
def applyOps (ok : Nat → Bool) (s : CacheState) (ops : List Op) : CacheState :=
  match ops with
  | [] => s
  | op :: rest => applyOps ok (applyOp ok s op) rest

/-- The process-wide `_cacheDirList` registry (src line 12) at
construction (src lines 42-45): an already registered directory makes the
constructor throw (`none`); otherwise the directory is registered. -/
def registryConstruct (reg : List String) (cacheDir : String) :
    Option (List String) :=
  if cacheDir ∈ reg then none else some (cacheDir :: reg)

/-- Effect of `destroy` (src lines 274-277) on the registry: none — no
code path ever removes a directory from `_cacheDirList`. -/
def registryDestroy (reg : List String) : List String := reg

/-- An entry's timer can never fire on its own: no handle, or a cleared
handle. -/
def timerOff (c : CacheItem) : Bool :=
  match c.timeout with
  | none => true
  | some t => !t.alive

/-- No entry of the index other than the one for `k` itself names `k`
among its related keys, so no cascade started at another key can reach
`k`.  The entry for `k` may well list its own key — `setGroup` always
writes self-inclusive lists — since a cascade only reads that list once
`k` itself is being deleted. -/
def noOtherRelatedRef (l : List (String × CacheItem)) (k : String) : Prop :=
  ∀ e ∈ l, e.1 ≠ k → k ∉ relList e.2

/-- All entries are groupless (no related keys). -/
def allRelatedEmpty (l : List (String × CacheItem)) : Prop :=
  ∀ e ∈ l, relList e.2 = []

/-- File-identifier invariant: the assignment history is strictly
increasing, every assigned identifier is below the counter, and every
indexed entry carries an assigned identifier. -/
def fileIdInv (s : CacheState) : Prop :=
  List.Pairwise (· < ·) s.assignedLog ∧
  (∀ x ∈ s.assignedLog, x < s.fileNameIndex) ∧
  (∀ e ∈ s.items, e.2.fileName ∈ s.assignedLog)

/-! Concrete states used by witnesses and counterexamples, built through
the modelled operations so that they are reachable cache states. -/

/-- Two plain entries `a` (2 bytes) and `b` (3 bytes), no timers. -/
def twoEntries : CacheState :=
  (set (set initialState "a" true 2 0 false none).1 "b" true 3 0 false none).1

/-- `set("a", 50ms, refreshOnRead)`, `set("b")`, rewrite of `a` with
`timeout = 0` (leaving a cleared handle on `a`), then `set("c")`:
index order `b, a, c`, `a` has a referenced but dead timer handle. -/
def staleHandleState : CacheState :=
  (set ((set ((set ((set initialState "a" true 1 50 true none).1)
    "b" true 1 0 false none).1) "a" true 1 0 true none).1)
    "c" true 1 0 false none).1

/-- A two-member group where `a` never expires (`timeout = 0`) and `b`
expires after 50ms. -/
def groupWithTimer : CacheState :=
  (setGroup initialState
    [⟨"a", true, 1, 0, false⟩, ⟨"b", true, 1, 50, false⟩]).1

/-- A two-member group of non-expiring entries. -/
def plainGroup : CacheState :=
  (setGroup initialState
    [⟨"a", true, 1, 0, false⟩, ⟨"b", true, 1, 0, false⟩]).1

/-- `set("a", 50ms, refreshOnRead)`, then `setGroup` of `a`
(`timeout = 0`, refreshOnRead) with `b` (`timeout = 0`), then a plain
rewrite of `b`: `a` keeps the self-inclusive related list `[a, b]` and a
referenced but dead handle, while no other entry references `a`. -/
def dissolvedGroup : CacheState :=
  (set (setGroup ((set initialState "a" true 1 50 true none).1)
    [⟨"a", true, 1, 0, true⟩, ⟨"b", true, 1, 0, false⟩]).1
    "b" true 1 0 false none).1

/-- A single 5-byte entry. -/
def oneEntry : CacheState :=
  (set initialState "a" true 5 0 false none).1

/-- An artifact-removal oracle that always fails. -/
def noneOk : Nat → Bool := fun _ => false

instance (l : List (String × CacheItem)) : Decidable (nodupKeys l) :=
  inferInstanceAs (Decidable ((keysOf l).Nodup))

instance (s : CacheState) : Decidable (sizeInv s) :=
  inferInstanceAs (Decidable (s.currentSize = sizeSum s.items))

instance (l : List (String × CacheItem)) (k : String) :
    Decidable (noOtherRelatedRef l k) :=
  inferInstanceAs (Decidable (∀ e ∈ l, e.1 ≠ k → k ∉ relList e.2))

instance (l : List (String × CacheItem)) : Decidable (allRelatedEmpty l) :=
  inferInstanceAs (Decidable (∀ e ∈ l, relList e.2 = []))

instance (s : CacheState) : Decidable (fileIdInv s) :=
  inferInstanceAs (Decidable (List.Pairwise (· < ·) s.assignedLog ∧
    ((∀ x ∈ s.assignedLog, x < s.fileNameIndex) ∧
    (∀ e ∈ s.items, e.2.fileName ∈ s.assignedLog))))

/-! ### Lemmas about the index representation -/

theorem lookupKey_eq_none_iff {l : List (String × CacheItem)} {k : String} :
    lookupKey l k = none ↔ k ∉ keysOf l := by
  induction l with
  | nil => simp [lookupKey, keysOf]
  | cons e rest ih =>
    simp only [lookupKey, keysOf, List.map_cons, List.mem_cons]
    by_cases he : e.1 = k
    · subst he; simp
    · have hke : ¬ (k = e.1) := fun hk => he hk.symm
      rw [if_neg he]
      simp only [keysOf] at ih
      simp [ih, hke]

theorem lookupKey_isSome_iff {l : List (String × CacheItem)} {k : String} :
    (lookupKey l k).isSome = true ↔ k ∈ keysOf l := by
  induction l with
  | nil => simp [lookupKey, keysOf]
  | cons e rest ih =>
    simp only [lookupKey, keysOf, List.map_cons, List.mem_cons]
    by_cases he : e.1 = k
    · subst he; simp
    · have hke : ¬ (k = e.1) := fun hk => he hk.symm
      rw [if_neg he]
      simp only [keysOf] at ih
      simp [ih, hke]

theorem lookupKey_eraseKey_self {l : List (String × CacheItem)} {k : String} :
    lookupKey (eraseKey l k) k = none := by
  induction l with
  | nil => simp [eraseKey, lookupKey]
  | cons e rest ih => by_cases he : e.1 = k <;> simp [eraseKey, lookupKey, he, ih]

theorem lookupKey_eraseKey_ne {l : List (String × CacheItem)} {k k' : String}
    (h : k' ≠ k) : lookupKey (eraseKey l k) k' = lookupKey l k' := by
  induction l with
  | nil => simp [eraseKey]
  | cons e rest ih =>
    by_cases he : e.1 = k
    · have hek' : ¬ (e.1 = k') := by rw [he]; exact fun hk => h hk.symm
      simp only [eraseKey, if_pos he, lookupKey, if_neg hek']
      exact ih
    · have h1 : eraseKey (e :: rest) k = e :: eraseKey rest k := by
        simp only [eraseKey, if_neg he]
      rw [h1]
      by_cases he' : e.1 = k'
      · simp only [lookupKey, if_pos he']
      · simp only [lookupKey, if_neg he']
        exact ih

theorem eraseKey_sublist (l : List (String × CacheItem)) (k : String) :
    List.Sublist (eraseKey l k) l := by
  induction l with
  | nil => exact List.nil_sublist _
  | cons e rest ih =>
    by_cases he : e.1 = k
    · have h1 : eraseKey (e :: rest) k = eraseKey rest k := by
        simp only [eraseKey, if_pos he]
      rw [h1]; exact ih.cons e
    · have h1 : eraseKey (e :: rest) k = e :: eraseKey rest k := by
        simp only [eraseKey, if_neg he]
      rw [h1]; exact ih.cons₂ e

theorem eraseKey_of_not_mem {l : List (String × CacheItem)} {k : String}
    (h : k ∉ keysOf l) : eraseKey l k = l := by
  induction l with
  | nil => simp [eraseKey]
  | cons e rest ih =>
    simp only [keysOf, List.map_cons, List.mem_cons, not_or] at h
    have he : e.1 ≠ k := fun hk => h.1 hk.symm
    simp [eraseKey, he, ih (by simpa [keysOf] using h.2)]

theorem nodupKeys_eraseKey {l : List (String × CacheItem)} {k : String}
    (h : nodupKeys l) : nodupKeys (eraseKey l k) :=
  h.sublist ((eraseKey_sublist l k).map Prod.fst)

theorem perm_cons_eraseKey {l : List (String × CacheItem)} {k : String}
    {c : CacheItem} (h : lookupKey l k = some c) (hn : nodupKeys l) :
    l.Perm ((k, c) :: eraseKey l k) := by
  induction l with
  | nil => simp [lookupKey] at h
  | cons e rest ih =>
    by_cases he : e.1 = k
    · simp only [lookupKey, if_pos he, Option.some.injEq] at h
      have hk : k ∉ keysOf rest := by
        simp only [nodupKeys, keysOf, List.map_cons, List.nodup_cons] at hn
        rw [← he]; exact hn.1
      have hec : e = (k, c) := by
        obtain ⟨e1, e2⟩ := e
        simp only at he h
        rw [he, h]
      subst hec
      have h1 : eraseKey ((k, c) :: rest) k = eraseKey rest k := by
        simp [eraseKey]
      rw [h1, eraseKey_of_not_mem hk]
    · simp only [lookupKey, if_neg he] at h
      have hn' : nodupKeys rest := by
        simp only [nodupKeys, keysOf, List.map_cons, List.nodup_cons] at hn
        exact hn.2
      have hperm := (ih h hn').cons e
      refine hperm.trans ?_
      have h1 : eraseKey (e :: rest) k = e :: eraseKey rest k := by
        simp only [eraseKey, if_neg he]
      rw [h1]
      exact List.Perm.swap _ _ _

theorem lookupKey_append_of_none {l₁ l₂ : List (String × CacheItem)}
    {k : String} (h : lookupKey l₁ k = none) :
    lookupKey (l₁ ++ l₂) k = lookupKey l₂ k := by
  induction l₁ with
  | nil => simp
  | cons e rest ih =>
    simp only [lookupKey] at h
    by_cases he : e.1 = k
    · rw [if_pos he] at h; exact absurd h (by simp)
    · rw [if_neg he] at h
      simp only [List.cons_append, lookupKey, if_neg he]
      exact ih h

theorem lookupKey_append_of_some {l₁ l₂ : List (String × CacheItem)}
    {k : String} {c : CacheItem} (h : lookupKey l₁ k = some c) :
    lookupKey (l₁ ++ l₂) k = some c := by
  induction l₁ with
  | nil => simp [lookupKey] at h
  | cons e rest ih =>
    simp only [lookupKey] at h
    by_cases he : e.1 = k
    · rw [if_pos he] at h
      simp only [List.cons_append, lookupKey, if_pos he]
      exact h
    · rw [if_neg he] at h
      simp only [List.cons_append, lookupKey, if_neg he]
      exact ih h

theorem sizeSum_nil : sizeSum [] = 0 := rfl

theorem sizeSum_cons (e : String × CacheItem) (l : List (String × CacheItem)) :
    sizeSum (e :: l) = (e.2.fileSize : Int) + sizeSum l := by
  simp [sizeSum]

theorem sizeSum_append (l₁ l₂ : List (String × CacheItem)) :
    sizeSum (l₁ ++ l₂) = sizeSum l₁ + sizeSum l₂ := by
  simp [sizeSum]

theorem sizeSum_perm {l₁ l₂ : List (String × CacheItem)} (h : l₁.Perm l₂) :
    sizeSum l₁ = sizeSum l₂ :=
  (h.map _).sum_eq

theorem noOtherRelatedRef_sublist {l l' : List (String × CacheItem)}
    {k : String} (hs : List.Sublist l' l) (h : noOtherRelatedRef l k) :
    noOtherRelatedRef l' k :=
  fun e he hne => h e (hs.subset he) hne

theorem lookupKey_mem {l : List (String × CacheItem)} {k : String}
    {c : CacheItem} (h : lookupKey l k = some c) : (k, c) ∈ l := by
  induction l with
  | nil => simp [lookupKey] at h
  | cons e rest ih =>
    simp only [lookupKey] at h
    by_cases he : e.1 = k
    · rw [if_pos he, Option.some.injEq] at h
      have hec : e = (k, c) := by
        obtain ⟨e1, e2⟩ := e
        simp only at he h
        rw [he, h]
      rw [hec]
      exact List.mem_cons_self _ _
    · rw [if_neg he] at h
      exact List.mem_cons_of_mem e (ih h)

theorem pendFinish_cons_del (k : String) (rest : List DelTask) :
    pendFinish (DelTask.del k :: rest) = pendFinish rest := by
  simp [pendFinish]

theorem pendFinish_cons_fin (c : CacheItem) (rest : List DelTask) :
    pendFinish (DelTask.fin c :: rest) = c :: pendFinish rest := by
  simp [pendFinish]

theorem pendFinish_append (t₁ t₂ : List DelTask) :
    pendFinish (t₁ ++ t₂) = pendFinish t₁ ++ pendFinish t₂ := by
  simp [pendFinish]

theorem pendFinish_map_del (l : List String) :
    pendFinish (l.map DelTask.del) = [] := by
  induction l with
  | nil => simp [pendFinish]
  | cons x rest ih => simpa [pendFinish] using ih

theorem sizeSumC_nil : sizeSumC [] = 0 := rfl

theorem sizeSumC_cons (c : CacheItem) (l : List CacheItem) :
    sizeSumC (c :: l) = (c.fileSize : Int) + sizeSumC l := by
  simp [sizeSumC]

/-! ### Unfolding equations and structural lemmas for the recursive delete -/

theorem runDelete_nil (ok : Nat → Bool) (s : CacheState) :
    runDelete ok s [] = (s, true) := by
  rw [runDelete]

theorem runDelete_cons_del_none {s : CacheState} {k : String}
    (ok : Nat → Bool) (rest : List DelTask)
    (h : lookupKey s.items k = none) :
    runDelete ok s (DelTask.del k :: rest) = runDelete ok s rest := by
  rw [runDelete]
  split <;> simp_all

theorem runDelete_cons_del_some {s : CacheState} {k : String} {c : CacheItem}
    (ok : Nat → Bool) (rest : List DelTask)
    (h : lookupKey s.items k = some c) :
    runDelete ok s (DelTask.del k :: rest) =
      runDelete ok { s with items := eraseKey s.items k }
        ((relList c).map DelTask.del ++ (DelTask.fin c :: rest)) := by
  rw [runDelete]
  split <;> simp_all

theorem runDelete_cons_fin_ok {c : CacheItem} (ok : Nat → Bool)
    (s : CacheState) (rest : List DelTask) (h : ok c.fileName = true) :
    runDelete ok s (DelTask.fin c :: rest) =
      runDelete ok
        { s with removed := s.removed ++ [c.fileName]
                 currentSize := s.currentSize - (c.fileSize : Int) } rest := by
  rw [runDelete]
  simp [h]

theorem runDelete_cons_fin_fail {c : CacheItem} (ok : Nat → Bool)
    (s : CacheState) (rest : List DelTask) (h : ok c.fileName = false) :
    runDelete ok s (DelTask.fin c :: rest) = (s, false) := by
  rw [runDelete]
  simp [h]

theorem runDelete_const (ok : Nat → Bool) (s : CacheState)
    (tasks : List DelTask) :
    (runDelete ok s tasks).1.fileNameIndex = s.fileNameIndex ∧
    (runDelete ok s tasks).1.assignedLog = s.assignedLog ∧
    (runDelete ok s tasks).1.now = s.now := by
  induction s, tasks using runDelete.induct ok with
  | case1 s => simp [runDelete_nil]
  | case2 s k rest h ih => rw [runDelete_cons_del_none ok rest h]; exact ih
  | case3 s k rest c h ih => rw [runDelete_cons_del_some ok rest h]; exact ih
  | case4 s c rest h ih => rw [runDelete_cons_fin_ok ok s rest h]; exact ih
  | case5 s c rest h =>
    rw [runDelete_cons_fin_fail ok s rest (by simpa using h)]
    exact ⟨rfl, rfl, rfl⟩

theorem runDelete_sublist (ok : Nat → Bool) (s : CacheState)
    (tasks : List DelTask) :
    List.Sublist (runDelete ok s tasks).1.items s.items := by
  induction s, tasks using runDelete.induct ok with
  | case1 s => simp [runDelete_nil]
  | case2 s k rest h ih => rw [runDelete_cons_del_none ok rest h]; exact ih
  | case3 s k rest c h ih =>
    rw [runDelete_cons_del_some ok rest h]
    exact ih.trans (eraseKey_sublist s.items k)
  | case4 s c rest h ih => rw [runDelete_cons_fin_ok ok s rest h]; exact ih
  | case5 s c rest h =>
    rw [runDelete_cons_fin_fail ok s rest (by simpa using h)]

theorem runDelete_nodup (ok : Nat → Bool) (s : CacheState)
    (tasks : List DelTask) (hn : nodupKeys s.items) :
    nodupKeys (runDelete ok s tasks).1.items :=
  hn.sublist ((runDelete_sublist ok s tasks).map Prod.fst)

theorem runDelete_flag_allOk (s : CacheState) (tasks : List DelTask) :
    (runDelete allOk s tasks).2 = true := by
  induction s, tasks using runDelete.induct allOk with
  | case1 s => simp [runDelete_nil]
  | case2 s k rest h ih => rw [runDelete_cons_del_none allOk rest h]; exact ih
  | case3 s k rest c h ih => rw [runDelete_cons_del_some allOk rest h]; exact ih
  | case4 s c rest h ih => rw [runDelete_cons_fin_ok allOk s rest h]; exact ih
  | case5 s c rest h => exact absurd rfl h

theorem runDelete_append (ok : Nat → Bool) : ∀ (s : CacheState)
    (t₁ t₂ : List DelTask), (runDelete ok s t₁).2 = true →
    runDelete ok s (t₁ ++ t₂) = runDelete ok (runDelete ok s t₁).1 t₂ := by
  intro s t₁
  induction s, t₁ using runDelete.induct ok with
  | case1 s => intro t₂ _; rw [runDelete_nil]; simp
  | case2 s k rest h ih =>
    intro t₂ hflag
    rw [runDelete_cons_del_none ok rest h] at hflag
    rw [List.cons_append, runDelete_cons_del_none ok (rest ++ t₂) h,
      runDelete_cons_del_none ok rest h]
    exact ih t₂ hflag
  | case3 s k rest c h ih =>
    intro t₂ hflag
    rw [runDelete_cons_del_some ok rest h] at hflag
    rw [List.cons_append, runDelete_cons_del_some ok (rest ++ t₂) h,
      runDelete_cons_del_some ok rest h]
    have hl : (relList c).map DelTask.del ++ (DelTask.fin c :: (rest ++ t₂)) =
        ((relList c).map DelTask.del ++ (DelTask.fin c :: rest)) ++ t₂ := by
      simp
    rw [hl]
    exact ih t₂ hflag
  | case4 s c rest h ih =>
    intro t₂ hflag
    rw [runDelete_cons_fin_ok ok s rest h] at hflag
    rw [List.cons_append, runDelete_cons_fin_ok ok s (rest ++ t₂) h,
      runDelete_cons_fin_ok ok s rest h]
    exact ih t₂ hflag
  | case5 s c rest h =>
    intro t₂ hflag
    rw [runDelete_cons_fin_fail ok s rest (by simpa using h)] at hflag
    simp at hflag

theorem runDelete_absent_stays (ok : Nat → Bool) (s : CacheState)
    (tasks : List DelTask) (x : String)
    (h : lookupKey s.items x = none) :
    lookupKey (runDelete ok s tasks).1.items x = none := by
  rw [lookupKey_eq_none_iff] at h ⊢
  intro hmem
  exact h (((runDelete_sublist ok s tasks).map Prod.fst).subset hmem)

theorem runDelete_del_mem_absent : ∀ (s : CacheState) (tasks : List DelTask)
    (x : String), DelTask.del x ∈ tasks →
    lookupKey (runDelete allOk s tasks).1.items x = none := by
  intro s tasks
  induction s, tasks using runDelete.induct allOk with
  | case1 s => intro x hx; simp at hx
  | case2 s k rest h ih =>
    intro x hx
    rw [runDelete_cons_del_none allOk rest h]
    rcases List.mem_cons.mp hx with h1 | h1
    · obtain rfl : x = k := by injection h1
      exact runDelete_absent_stays allOk s rest x h
    · exact ih x h1
  | case3 s k rest c h ih =>
    intro x hx
    rw [runDelete_cons_del_some allOk rest h]
    by_cases hxk : x = k
    · subst hxk
      exact runDelete_absent_stays allOk _ _ x lookupKey_eraseKey_self
    · rcases List.mem_cons.mp hx with h1 | h1
      · exact absurd (by injection h1) hxk
      · exact ih x (List.mem_append_right _ (List.mem_cons_of_mem _ h1))
  | case4 s c rest h ih =>
    intro x hx
    rw [runDelete_cons_fin_ok allOk s rest h]
    rcases List.mem_cons.mp hx with h1 | h1
    · exact absurd h1 (by simp)
    · exact ih x h1
  | case5 s c rest h => exact absurd rfl h

theorem runDelete_preserve_key (ok : Nat → Bool) : ∀ (s : CacheState)
    (tasks : List DelTask) (k : String), noOtherRelatedRef s.items k →
    (∀ j, DelTask.del j ∈ tasks → j ≠ k) →
    lookupKey (runDelete ok s tasks).1.items k = lookupKey s.items k := by
  intro s tasks
  induction s, tasks using runDelete.induct ok with
  | case1 s => intro k _ _; rw [runDelete_nil]
  | case2 s kk rest h ih =>
    intro k h1 h2
    rw [runDelete_cons_del_none ok rest h]
    exact ih k h1 (fun j hj => h2 j (List.mem_cons_of_mem _ hj))
  | case3 s kk rest c h ih =>
    intro k h1 h2
    rw [runDelete_cons_del_some ok rest h]
    have hkk : kk ≠ k := h2 kk (List.mem_cons_self _ _)
    have hrel : k ∉ relList c := h1 (kk, c) (lookupKey_mem h) hkk
    have step : lookupKey (eraseKey s.items kk) k = lookupKey s.items k :=
      lookupKey_eraseKey_ne (fun hk => hkk hk.symm)
    rw [← step]
    refine ih k (noOtherRelatedRef_sublist (eraseKey_sublist s.items kk) h1) ?_
    intro j hj
    rcases List.mem_append.mp hj with hj1 | hj1
    · obtain ⟨a, ha, haj⟩ := List.mem_map.mp hj1
      obtain rfl : a = j := by injection haj
      exact fun hjk => hrel (hjk ▸ ha)
    · rcases List.mem_cons.mp hj1 with hj2 | hj2
      · exact absurd hj2 (by simp)
      · exact h2 j (List.mem_cons_of_mem _ hj2)
  | case4 s c rest h ih =>
    intro k h1 h2
    rw [runDelete_cons_fin_ok ok s rest h]
    exact ih k h1 (fun j hj => h2 j (List.mem_cons_of_mem _ hj))
  | case5 s c rest h =>
    intro k _ _
    rw [runDelete_cons_fin_fail ok s rest (by simpa using h)]

theorem runDelete_accounting : ∀ (s : CacheState) (tasks : List DelTask),
    nodupKeys s.items → ∃ (dropped : List (String × CacheItem)) (L : List Nat),
    s.items.Perm ((runDelete allOk s tasks).1.items ++ dropped) ∧
    (runDelete allOk s tasks).1.removed = s.removed ++ L ∧
    L.Perm (dropped.map (fun e => e.2.fileName) ++
      (pendFinish tasks).map CacheItem.fileName) ∧
    (runDelete allOk s tasks).1.currentSize =
      s.currentSize - sizeSum dropped - sizeSumC (pendFinish tasks) := by
  intro s tasks
  induction s, tasks using runDelete.induct allOk with
  | case1 s =>
    intro _
    refine ⟨[], [], ?_, ?_, ?_, ?_⟩ <;>
      simp [runDelete_nil, pendFinish, sizeSum, sizeSumC]
  | case2 s k rest h ih =>
    intro hn
    obtain ⟨d, L, h1, h2, h3, h4⟩ := ih hn
    rw [runDelete_cons_del_none allOk rest h]
    exact ⟨d, L, h1, h2, by simpa [pendFinish_cons_del] using h3,
      by simpa [pendFinish_cons_del] using h4⟩
  | case3 s k rest c h ih =>
    intro hn
    obtain ⟨d, L, h1, h2, h3, h4⟩ := ih (nodupKeys_eraseKey hn)
    rw [runDelete_cons_del_some allOk rest h]
    refine ⟨(k, c) :: d, L, ?_, h2, ?_, ?_⟩
    · refine (perm_cons_eraseKey h hn).trans ?_
      refine ((h1.cons (k, c)).trans ?_)
      exact List.perm_middle.symm
    · refine h3.trans ?_
      rw [pendFinish_append, pendFinish_map_del, pendFinish_cons_fin,
        pendFinish_cons_del]
      simp only [List.nil_append, List.map_cons]
      exact List.perm_middle
    · rw [pendFinish_append, pendFinish_map_del, pendFinish_cons_fin,
        List.nil_append] at h4
      rw [h4, pendFinish_cons_del]
      simp only [sizeSum_cons, sizeSumC_cons]
      omega
  | case4 s c rest h ih =>
    intro hn
    obtain ⟨d, L, h1, h2, h3, h4⟩ := ih hn
    rw [runDelete_cons_fin_ok allOk s rest h]
    refine ⟨d, c.fileName :: L, h1, ?_, ?_, ?_⟩
    · rw [h2]; simp
    · rw [pendFinish_cons_fin]
      simp only [List.map_cons]
      exact (h3.cons c.fileName).trans List.perm_middle.symm
    · rw [h4, pendFinish_cons_fin, sizeSumC_cons]
      ring
  | case5 s c rest h => exact absurd rfl h

/-! ### Derived facts about `delete` -/

theorem delete_absent (ok : Nat → Bool) (s : CacheState) (k : String)
    (h : lookupKey s.items k = none) : delete ok s k = (s, true) := by
  rw [delete, runDelete_cons_del_none ok [] h, runDelete_nil]

theorem delete_flag_allOk (s : CacheState) (k : String) :
    (delete allOk s k).2 = true :=
  runDelete_flag_allOk s [DelTask.del k]

theorem delete_sublist (ok : Nat → Bool) (s : CacheState) (k : String) :
    List.Sublist (delete ok s k).1.items s.items :=
  runDelete_sublist ok s [DelTask.del k]

theorem delete_nodup (ok : Nat → Bool) (s : CacheState) (k : String)
    (hn : nodupKeys s.items) : nodupKeys (delete ok s k).1.items :=
  runDelete_nodup ok s [DelTask.del k] hn

theorem delete_sizeInv (s : CacheState) (k : String) (hinv : sizeInv s)
    (hn : nodupKeys s.items) : sizeInv (delete allOk s k).1 := by
  obtain ⟨d, L, h1, h2, h3, h4⟩ := runDelete_accounting s [DelTask.del k] hn
  have hp : pendFinish [DelTask.del k] = [] := by simp [pendFinish]
  rw [hp, sizeSumC_nil] at h4
  have hsum := sizeSum_perm h1
  rw [sizeSum_append] at hsum
  rw [sizeInv] at hinv ⊢
  rw [delete]
  omega

theorem delete_lookup_self (s : CacheState) (k : String) :
    lookupKey (delete allOk s k).1.items k = none :=
  runDelete_del_mem_absent s [DelTask.del k] k (List.mem_cons_self _ _)

theorem delete_no_related (s : CacheState) (k : String) (c : CacheItem)
    (h : lookupKey s.items k = some c) (hrel : relList c = []) :
    delete allOk s k =
      ({ s with items := eraseKey s.items k
                removed := s.removed ++ [c.fileName]
                currentSize := s.currentSize - (c.fileSize : Int) }, true) := by
  rw [delete, runDelete_cons_del_some allOk [] h, hrel]
  simp only [List.map_nil, List.nil_append]
  rw [runDelete_cons_fin_ok allOk _ [] rfl, runDelete_nil]

/-! ### Lemmas about the eviction walk -/

theorem evictWalk_nil (ok : Nat → Bool) (downTo : ℚ) (s : CacheState) :
    evictWalk ok downTo s [] = s := rfl

theorem evictWalk_cons_absent {s : CacheState} {k : String}
    (ok : Nat → Bool) (downTo : ℚ) (rest : List String)
    (hp : lookupKey s.items k = none) :
    evictWalk ok downTo s (k :: rest) = evictWalk ok downTo s rest := by
  rw [evictWalk, if_neg (by rw [hp]; simp)]

theorem evictWalk_cons_stop {s : CacheState} {k : String}
    (ok : Nat → Bool) (downTo : ℚ) (rest : List String)
    (hp : (lookupKey s.items k).isSome = true)
    (hq : ¬ downTo < (s.currentSize : ℚ)) :
    evictWalk ok downTo s (k :: rest) = s := by
  rw [evictWalk, if_pos hp, if_neg hq]

theorem evictWalk_cons_del {s s' : CacheState} {k : String}
    (ok : Nat → Bool) (downTo : ℚ) (rest : List String)
    (hp : (lookupKey s.items k).isSome = true)
    (hq : downTo < (s.currentSize : ℚ))
    (hdel : delete ok s k = (s', true)) :
    evictWalk ok downTo s (k :: rest) = evictWalk ok downTo s' rest := by
  rw [evictWalk, if_pos hp, if_pos hq, hdel]

theorem evictWalk_cons_fail {s s' : CacheState} {k : String}
    (ok : Nat → Bool) (downTo : ℚ) (rest : List String)
    (hp : (lookupKey s.items k).isSome = true)
    (hq : downTo < (s.currentSize : ℚ))
    (hdel : delete ok s k = (s', false)) :
    evictWalk ok downTo s (k :: rest) = s' := by
  rw [evictWalk, if_pos hp, if_pos hq, hdel]

theorem evictWalk_stop (ok : Nat → Bool) (downTo : ℚ) :
    ∀ (keys : List String) (s : CacheState),
    (s.currentSize : ℚ) ≤ downTo → evictWalk ok downTo s keys = s := by
  intro keys
  induction keys with
  | nil => intro s _; rfl
  | cons k rest ih =>
    intro s h
    cases hp : lookupKey s.items k with
    | none => rw [evictWalk_cons_absent ok downTo rest hp]; exact ih s h
    | some c =>
      exact evictWalk_cons_stop ok downTo rest (by rw [hp]; rfl) (not_lt.mpr h)

theorem evictWalk_sublist (ok : Nat → Bool) (downTo : ℚ) :
    ∀ (keys : List String) (s : CacheState),
    List.Sublist (evictWalk ok downTo s keys).items s.items := by
  intro keys
  induction keys with
  | nil => intro s; exact List.Sublist.refl _
  | cons k rest ih =>
    intro s
    cases hp : lookupKey s.items k with
    | none => rw [evictWalk_cons_absent ok downTo rest hp]; exact ih s
    | some c =>
      have hps : (lookupKey s.items k).isSome = true := by rw [hp]; rfl
      by_cases hq : downTo < (s.currentSize : ℚ)
      · rcases hdel : delete ok s k with ⟨s', b⟩
        have hsub : List.Sublist s'.items s.items := by
          have hds := delete_sublist ok s k
          rw [hdel] at hds
          exact hds
        cases b
        · rw [evictWalk_cons_fail ok downTo rest hps hq hdel]
          exact hsub
        · rw [evictWalk_cons_del ok downTo rest hps hq hdel]
          exact (ih s').trans hsub
      · rw [evictWalk_cons_stop ok downTo rest hps hq]

theorem evictWalk_inv (downTo : ℚ) :
    ∀ (keys : List String) (s : CacheState), sizeInv s → nodupKeys s.items →
    sizeInv (evictWalk allOk downTo s keys) ∧
      nodupKeys (evictWalk allOk downTo s keys).items := by
  intro keys
  induction keys with
  | nil => intro s hinv hn; exact ⟨hinv, hn⟩
  | cons k rest ih =>
    intro s hinv hn
    cases hp : lookupKey s.items k with
    | none => rw [evictWalk_cons_absent allOk downTo rest hp]; exact ih s hinv hn
    | some c =>
      have hps : (lookupKey s.items k).isSome = true := by rw [hp]; rfl
      by_cases hq : downTo < (s.currentSize : ℚ)
      · rcases hdel : delete allOk s k with ⟨s', b⟩
        have hb : b = true := by
          have hfl := delete_flag_allOk s k
          rw [hdel] at hfl
          exact hfl
        subst hb
        have hinv' : sizeInv s' := by
          have hx := delete_sizeInv s k hinv hn
          rw [hdel] at hx
          exact hx
        have hn' : nodupKeys s'.items := by
          have hx := delete_nodup allOk s k hn
          rw [hdel] at hx
          exact hx
        rw [evictWalk_cons_del allOk downTo rest hps hq hdel]
        exact ih s' hinv' hn'
      · rw [evictWalk_cons_stop allOk downTo rest hps hq]
        exact ⟨hinv, hn⟩

theorem evictWalk_target (downTo : ℚ) :
    ∀ (keys : List String) (s : CacheState), sizeInv s → nodupKeys s.items →
    (∀ x ∈ keysOf s.items, x ∈ keys) →
    ((evictWalk allOk downTo s keys).currentSize : ℚ) ≤ downTo ∨
      (evictWalk allOk downTo s keys).items = [] := by
  intro keys
  induction keys with
  | nil =>
    intro s _ _ hsub
    right
    rw [evictWalk_nil]
    cases hit : s.items with
    | nil => rfl
    | cons e tail =>
      have hmem : e.1 ∈ keysOf s.items := by
        rw [hit, keysOf, List.map_cons]
        exact List.mem_cons_self _ _
      exact absurd (hsub e.1 hmem) (by simp)
  | cons k rest ih =>
    intro s hinv hn hsub
    cases hp : lookupKey s.items k with
    | none =>
      rw [evictWalk_cons_absent allOk downTo rest hp]
      refine ih s hinv hn ?_
      intro x hx
      rcases List.mem_cons.mp (hsub x hx) with h1 | h1
      · subst h1
        rw [← lookupKey_isSome_iff] at hx
        rw [hp] at hx
        exact absurd hx (by simp)
      · exact h1
    | some c =>
      have hps : (lookupKey s.items k).isSome = true := by rw [hp]; rfl
      by_cases hq : downTo < (s.currentSize : ℚ)
      · rcases hdel : delete allOk s k with ⟨s', b⟩
        have hb : b = true := by
          have hfl := delete_flag_allOk s k
          rw [hdel] at hfl
          exact hfl
        subst hb
        have hinv' : sizeInv s' := by
          have hx := delete_sizeInv s k hinv hn
          rw [hdel] at hx
          exact hx
        have hn' : nodupKeys s'.items := by
          have hx := delete_nodup allOk s k hn
          rw [hdel] at hx
          exact hx
        have habs : lookupKey s'.items k = none := by
          have hx := delete_lookup_self s k
          rw [hdel] at hx
          exact hx
        have hsub' : ∀ x ∈ keysOf s'.items, x ∈ rest := by
          intro x hx
          have hxs : x ∈ keysOf s.items := by
            have hds : List.Sublist s'.items s.items := by
              have hy := delete_sublist allOk s k
              rw [hdel] at hy
              exact hy
            exact (hds.map Prod.fst).subset hx
          rcases List.mem_cons.mp (hsub x hxs) with h1 | h1
          · subst h1
            rw [lookupKey_eq_none_iff] at habs
            exact absurd hx habs
          · exact h1
        rw [evictWalk_cons_del allOk downTo rest hps hq hdel]
        exact ih s' hinv' hn' hsub'
      · rw [evictWalk_cons_stop allOk downTo rest hps hq]
        left
        exact le_of_not_lt hq

theorem evictWalk_self_prefix (downTo : ℚ) :
    ∀ (n : Nat) (s : CacheState), s.items.length ≤ n →
    allRelatedEmpty s.items → nodupKeys s.items →
    ∃ p, s.items = p ++ (evictWalk allOk downTo s (keysOf s.items)).items := by
  intro n
  induction n with
  | zero =>
    intro s hlen _ _
    have hit : s.items = [] := List.length_eq_zero.mp (Nat.le_zero.mp hlen)
    have hk : keysOf s.items = [] := by rw [keysOf, hit]; rfl
    refine ⟨[], ?_⟩
    rw [hk, evictWalk_nil, hit]
    rfl
  | succ m ih =>
    intro s hlen hrel hn
    cases hit : s.items with
    | nil =>
      refine ⟨[], ?_⟩
      rw [show keysOf ([] : List (String × CacheItem)) = [] from rfl,
        evictWalk_nil, hit]
      rfl
    | cons e tail =>
      have hkeys : keysOf s.items = e.1 :: keysOf tail := by
        rw [hit, keysOf, List.map_cons]; rfl
      have hlk : lookupKey s.items e.1 = some e.2 := by
        rw [hit, lookupKey, if_pos rfl]
      have hps : (lookupKey s.items e.1).isSome = true := by rw [hlk]; rfl
      by_cases hq : downTo < (s.currentSize : ℚ)
      · have hrele : relList e.2 = [] :=
          hrel e (by rw [hit]; exact List.mem_cons_self _ _)
        have hknot : e.1 ∉ keysOf tail := by
          have hx := hn
          rw [nodupKeys, keysOf, hit, List.map_cons, List.nodup_cons] at hx
          exact hx.1
        have herase : eraseKey s.items e.1 = tail := by
          rw [hit, eraseKey, if_pos rfl, eraseKey_of_not_mem hknot]
        have hdel := delete_no_related s e.1 e.2 hlk hrele
        set s' : CacheState :=
          { s with items := eraseKey s.items e.1
                   removed := s.removed ++ [e.2.fileName]
                   currentSize := s.currentSize - (e.2.fileSize : Int) } with hs'
        have hs'items : s'.items = tail := herase
        have hlen' : s'.items.length ≤ m := by
          rw [hs'items]
          have hy := hlen
          rw [hit, List.length_cons] at hy
          omega
        have hrel' : allRelatedEmpty s'.items := by
          rw [hs'items]
          intro x hx
          exact hrel x (by rw [hit]; exact List.mem_cons_of_mem _ hx)
        have hn' : nodupKeys s'.items := by
          rw [hs'items]
          have hx := hn
          rw [nodupKeys, keysOf, hit, List.map_cons, List.nodup_cons] at hx
          exact hx.2
        obtain ⟨p, hp⟩ := ih s' hlen' hrel' hn'
        have hkeys' : keysOf tail = keysOf s'.items := by rw [hs'items]
        refine ⟨e :: p, ?_⟩
        rw [show keysOf (e :: tail) = e.1 :: keysOf tail from rfl,
          evictWalk_cons_del allOk downTo (keysOf tail) hps hq hdel,
          hkeys', List.cons_append, ← hs'items]
        conv_lhs => rw [hp]
      · refine ⟨[], ?_⟩
        rw [show keysOf (e :: tail) = e.1 :: keysOf tail from rfl,
          evictWalk_cons_stop allOk downTo _ hps hq, hit]
        rfl

/-! ### Lemmas about timer clearing and writes -/

theorem clearEntryTimer_shape (l : List (String × CacheItem)) (k : String) :
    (clearEntryTimer l k).map (fun e => (e.1, e.2.fileName, e.2.fileSize)) =
      l.map (fun e => (e.1, e.2.fileName, e.2.fileSize)) := by
  rw [clearEntryTimer, List.map_map]
  refine List.map_congr_left ?_
  intro e _
  by_cases hek : e.1 = k <;> simp [hek, clearTimer]

theorem lookupKey_clearEntryTimer_self {l : List (String × CacheItem)}
    {k : String} {c : CacheItem} (h : lookupKey l k = some c) :
    lookupKey (clearEntryTimer l k) k = some (clearTimer c) := by
  induction l with
  | nil => simp [lookupKey] at h
  | cons e rest ih =>
    simp only [lookupKey] at h
    by_cases he : e.1 = k
    · rw [if_pos he, Option.some.injEq] at h
      simp only [clearEntryTimer, List.map_cons, if_pos he, lookupKey]
      rw [h]
    · rw [if_neg he] at h
      simp only [clearEntryTimer, List.map_cons, if_neg he, lookupKey, if_neg he]
      simp only [clearEntryTimer] at ih
      exact ih h

theorem lookupKey_clearEntryTimer_ne {l : List (String × CacheItem)}
    {key k : String} (h : k ≠ key) :
    lookupKey (clearEntryTimer l key) k = lookupKey l k := by
  induction l with
  | nil => simp [clearEntryTimer, lookupKey]
  | cons e rest ih =>
    by_cases he : e.1 = key
    · have hek : ¬ (e.1 = k) := by rw [he]; exact fun hk => h hk.symm
      simp only [clearEntryTimer, List.map_cons, if_pos he, lookupKey,
        if_neg hek]
      simp only [clearEntryTimer] at ih
      exact ih
    · simp only [clearEntryTimer, List.map_cons, if_neg he, lookupKey]
      simp only [clearEntryTimer] at ih
      by_cases hek : e.1 = k
      · rw [if_pos hek, if_pos hek]
      · rw [if_neg hek, if_neg hek, ih]

theorem lookupKey_snoc_ne (l : List (String × CacheItem)) (key k : String)
    (c : CacheItem) (h : k ≠ key) :
    lookupKey (l ++ [(key, c)]) k = lookupKey l k := by
  cases hl : lookupKey l k with
  | some c' => exact lookupKey_append_of_some hl
  | none =>
    rw [lookupKey_append_of_none hl]
    simp only [lookupKey]
    rw [if_neg (show ¬ ((key, c).1 = k) from fun hk => h hk.symm)]

theorem lookupKey_snoc_self (l : List (String × CacheItem)) (key : String)
    (c : CacheItem) (h : lookupKey l key = none) :
    lookupKey (l ++ [(key, c)]) key = some c := by
  rw [lookupKey_append_of_none h]
  simp [lookupKey]

theorem nodupKeys_erase_snoc {l : List (String × CacheItem)} (k : String)
    (c : CacheItem) (hn : nodupKeys l) :
    nodupKeys (eraseKey l k ++ [(k, c)]) := by
  rw [nodupKeys, keysOf, List.map_append]
  apply List.Nodup.append
  · exact nodupKeys_eraseKey hn
  · simp
  · intro x hx hx2
    simp only [List.map_cons, List.map_nil, List.mem_singleton] at hx2
    have hnone : lookupKey (eraseKey l k) k = none := lookupKey_eraseKey_self
    rw [lookupKey_eq_none_iff] at hnone
    rw [hx2] at hx
    exact hnone hx

theorem prepareWrite_flag (s : CacheState) (key : String) (newSize timeout : Nat)
    (refresh : Bool) (related : Option (List String)) :
    (prepareWrite s key true newSize timeout refresh related).2 = true := by
  rw [prepareWrite]
  cases lookupKey s.items key <;> simp

theorem prepareWrite_lookup_other (s : CacheState) (key : String)
    (writeOk : Bool) (newSize timeout : Nat) (refresh : Bool)
    (related : Option (List String)) (k : String) (h : k ≠ key) :
    lookupKey (prepareWrite s key writeOk newSize timeout refresh related).1.items k =
      lookupKey s.items k := by
  rw [prepareWrite]
  cases hl : lookupKey s.items key with
  | none =>
    cases writeOk
    · simp only [Bool.false_eq_true, if_false]
    · simp only [if_true]
      exact lookupKey_snoc_ne _ _ _ _ h
  | some c =>
    cases writeOk
    · simp only [Bool.false_eq_true, if_false]
      exact lookupKey_clearEntryTimer_ne h
    · simp only [if_true]
      rw [lookupKey_snoc_ne _ _ _ _ h, lookupKey_eraseKey_ne h,
        lookupKey_clearEntryTimer_ne h]

theorem prepareWrite_lookup_self (s : CacheState) (key : String)
    (newSize timeout : Nat) (refresh : Bool) (related : Option (List String)) :
    ∃ c', lookupKey
        (prepareWrite s key true newSize timeout refresh related).1.items key =
        some c' ∧ c'.related = related ∧ c'.fileSize = newSize ∧
        c'.refreshTimeoutWhenGet = refresh := by
  rw [prepareWrite]
  cases hl : lookupKey s.items key with
  | none =>
    simp only [if_true]
    refine ⟨_, lookupKey_snoc_self _ _ _ hl, rfl, rfl, rfl⟩
  | some c =>
    simp only [if_true]
    exact ⟨_, lookupKey_snoc_self _ _ _ lookupKey_eraseKey_self, rfl, rfl, rfl⟩

/-! ### Lemmas about the empty loop -/

theorem sizeSum_filter_split (p : String × CacheItem → Bool)
    (l : List (String × CacheItem)) :
    sizeSum l = sizeSum (l.filter p) + sizeSum (l.filter (fun e => !(p e))) := by
  induction l with
  | nil => simp [sizeSum]
  | cons e rest ih =>
    cases hp : p e <;>
      simp [List.filter_cons, hp, sizeSum_cons, ih] <;> omega

theorem emptyGo_items (ok : Nat → Bool) :
    ∀ (l : List (String × CacheItem)) (s : CacheState),
    (∀ x ∈ keysOf s.items, x ∈ keysOf l) → (emptyGo ok s l).items = [] := by
  intro l
  induction l with
  | nil =>
    intro s hsub
    rw [emptyGo]
    cases hit : s.items with
    | nil => rfl
    | cons e tail =>
      have hmem : e.1 ∈ keysOf s.items := by
        rw [hit, keysOf, List.map_cons]
        exact List.mem_cons_self _ _
      exact absurd (hsub e.1 hmem) (by simp [keysOf])
  | cons e rest ih =>
    intro s hsub
    obtain ⟨k, c⟩ := e
    rw [emptyGo]
    have hsub' : ∀ x ∈ keysOf (eraseKey s.items k), x ∈ keysOf rest := by
      intro x hx
      have hxk : x ≠ k := by
        intro hxe
        subst hxe
        have : lookupKey (eraseKey s.items x) x = none := lookupKey_eraseKey_self
        rw [lookupKey_eq_none_iff] at this
        exact this hx
      have hxs : x ∈ keysOf s.items :=
        ((eraseKey_sublist s.items k).map Prod.fst).subset hx
      rcases List.mem_cons.mp (hsub x hxs) with h1 | h1
      · exact absurd h1 hxk
      · exact h1
    cases hok : ok c.fileName
    · simp only [Bool.false_eq_true, if_false]
      exact ih _ hsub'
    · simp only [if_true]
      exact ih _ hsub'

theorem emptyGo_size (ok : Nat → Bool) :
    ∀ (l : List (String × CacheItem)) (s : CacheState),
    (emptyGo ok s l).currentSize =
      s.currentSize - sizeSum (l.filter (fun e => ok e.2.fileName)) := by
  intro l
  induction l with
  | nil => intro s; rw [emptyGo]; simp [sizeSum]
  | cons e rest ih =>
    intro s
    obtain ⟨k, c⟩ := e
    rw [emptyGo]
    cases hok : ok c.fileName
    · simp only [Bool.false_eq_true, if_false]
      rw [ih]
      have hf : List.filter (fun e => ok e.2.fileName) ((k, c) :: rest) =
          List.filter (fun e => ok e.2.fileName) rest := by
        simp [List.filter_cons, hok]
      rw [hf]
    · simp only [if_true]
      rw [ih]
      have hf : List.filter (fun e => ok e.2.fileName) ((k, c) :: rest) =
          (k, c) :: List.filter (fun e => ok e.2.fileName) rest := by
        simp [List.filter_cons, hok]
      rw [hf, sizeSum_cons]
      show s.currentSize - (c.fileSize : Int) -
          sizeSum (List.filter (fun e => ok e.2.fileName) rest) =
        s.currentSize - ((c.fileSize : Int) +
          sizeSum (List.filter (fun e => ok e.2.fileName) rest))
      omega

/-! ### Claim theorems -/

/-- C10: a cache directory is never released from the process-wide
registry — construction registers the directory (or throws when it is
taken), `destroy` does not touch the registry, so a second construction
with the same directory throws even after the first instance's
`destroy()` has completed. -/
theorem registry_never_released (reg reg' : List String) (d : String)
    (h : registryConstruct reg d = some reg') :
    registryDestroy reg' = reg' ∧
    registryConstruct (registryDestroy reg') d = none := by
  refine ⟨rfl, ?_⟩
  rw [registryConstruct] at h
  by_cases hd : d ∈ reg
  · rw [if_pos hd] at h; cases h
  · rw [if_neg hd, Option.some.injEq] at h
    have hmem : d ∈ reg' := by rw [← h]; exact List.mem_cons_self _ _
    rw [registryDestroy, registryConstruct, if_pos hmem]

/-- Witness for C10: a fresh registry accepts a directory once and then
refuses it forever, `destroy` notwithstanding. -/
theorem registry_never_released_witness :
    registryDestroy ["dir1"] = ["dir1"] ∧
    registryConstruct (registryDestroy ["dir1"]) "dir1" = none :=
  registry_never_released [] ["dir1"] "dir1" (by decide)

/-- C3: when the artifact writer of a `set`/`move` fails, the failure
propagates (`false` flag), `currentSize` is untouched, every index entry
keeps its key, identifier, recorded size and position (only the pending
timer of the written key is cancelled), a previously absent key stays
absent with the index unchanged, and a previously present key is still
indexed at its old record up to the cancelled timer. -/
theorem prepareWrite_failure_correct (s : CacheState) (key : String)
    (newSize timeout : Nat) (refresh : Bool)
    (related : Option (List String)) :
    (prepareWrite s key false newSize timeout refresh related).2 = false ∧
    (prepareWrite s key false newSize timeout refresh related).1.currentSize =
      s.currentSize ∧
    (prepareWrite s key false newSize timeout refresh related).1.items.map
        (fun e => (e.1, e.2.fileName, e.2.fileSize)) =
      s.items.map (fun e => (e.1, e.2.fileName, e.2.fileSize)) ∧
    (lookupKey s.items key = none →
      (prepareWrite s key false newSize timeout refresh related).1.items =
        s.items) ∧
    (∀ c, lookupKey s.items key = some c →
      lookupKey
          (prepareWrite s key false newSize timeout refresh related).1.items
          key = some (clearTimer c)) := by
  rw [prepareWrite]
  cases hl : lookupKey s.items key with
  | none =>
    refine ⟨rfl, rfl, rfl, fun _ => rfl, ?_⟩
    intro c hc
    exact Option.noConfusion hc
  | some c =>
    refine ⟨rfl, rfl, clearEntryTimer_shape s.items key, ?_, ?_⟩
    · intro hnone
      exact Option.noConfusion hnone
    · intro c' hc'
      rw [Option.some.injEq] at hc'
      rw [← hc']
      exact lookupKey_clearEntryTimer_self hl

/-- Witness for C3 on a concrete two-entry cache: rewriting `a` with a
failing writer mutates nothing that the claim protects. -/
theorem prepareWrite_failure_correct_witness :
    (prepareWrite twoEntries "a" false 9 50 true none).2 = false ∧
    (prepareWrite twoEntries "a" false 9 50 true none).1.currentSize =
      twoEntries.currentSize ∧
    (prepareWrite twoEntries "a" false 9 50 true none).1.items.map
        (fun e => (e.1, e.2.fileName, e.2.fileSize)) =
      twoEntries.items.map (fun e => (e.1, e.2.fileName, e.2.fileSize)) ∧
    (lookupKey twoEntries.items "a" = none →
      (prepareWrite twoEntries "a" false 9 50 true none).1.items =
        twoEntries.items) ∧
    (∀ c, lookupKey twoEntries.items "a" = some c →
      lookupKey (prepareWrite twoEntries "a" false 9 50 true none).1.items
        "a" = some (clearTimer c)) :=
  prepareWrite_failure_correct twoEntries "a" 9 50 true none

/-- C8 counterexample: `empty` with a failing artifact removal leaves the
5-byte entry's size counted — `currentSize` ends at 5, not 0, while the
key is indeed gone from the index.  The claim that `currentSize` equals 0
even when a removal fails is false on the code, which skips the decrement
in the `catch` path. -/
theorem empty_failure_keeps_size :
    (empty noneOk oneEntry).currentSize = 5 ∧
    ¬ (empty noneOk oneEntry).currentSize = 0 ∧
    has (empty noneOk oneEntry) "a" = false := by decide

/-- C8 amended: after `empty()` every previously present key is absent and
the index is empty, but `currentSize` ends at the summed size of the
entries whose artifact removal failed (each failure is logged and the loop
continues); it is 0 exactly when every removal succeeded. -/
theorem empty_amended (ok : Nat → Bool) (s : CacheState)
    (hinv : sizeInv s) :
    (empty ok s).items = [] ∧
    (∀ k, has (empty ok s) k = false) ∧
    (empty ok s).currentSize =
      sizeSum (s.items.filter (fun e => !(ok e.2.fileName))) ∧
    ((∀ e ∈ s.items, ok e.2.fileName = true) →
      (empty ok s).currentSize = 0) := by
  have hitems : (empty ok s).items = [] :=
    emptyGo_items ok s.items s (fun x hx => hx)
  have hsize : (empty ok s).currentSize =
      s.currentSize - sizeSum (s.items.filter (fun e => ok e.2.fileName)) :=
    emptyGo_size ok s.items s
  have hsplit := sizeSum_filter_split (fun e => ok e.2.fileName) s.items
  refine ⟨hitems, ?_, ?_, ?_⟩
  · intro k
    rw [has, hitems]
    rfl
  · rw [hsize, sizeInv] at *
    omega
  · intro hall
    have hf : s.items.filter (fun e => !(ok e.2.fileName)) = [] := by
      rw [List.filter_eq_nil_iff]
      intro e he
      rw [hall e he]
      simp
    rw [hsize, sizeInv] at *
    rw [hf, sizeSum_nil] at hsplit
    omega

/-- Witness for C8's amended claim at the one-entry cache with an
always-failing remover: the index empties but the 5 bytes stay counted. -/
theorem empty_amended_witness :
    (empty noneOk oneEntry).items = [] ∧
    (∀ k, has (empty noneOk oneEntry) k = false) ∧
    (empty noneOk oneEntry).currentSize =
      sizeSum (oneEntry.items.filter (fun e => !(noneOk e.2.fileName))) ∧
    ((∀ e ∈ oneEntry.items, noneOk e.2.fileName = true) →
      (empty noneOk oneEntry).currentSize = 0) :=
  empty_amended noneOk oneEntry (by decide)

/-! Unfolding lemmas for `get`. -/

theorem get_absent {s : CacheState} {k : String}
    (h : lookupKey s.items k = none) : get s k = (s, none) := by
  rw [get, h]

theorem get_touch {s : CacheState} {k : String} {c : CacheItem}
    (h : lookupKey s.items k = some c)
    (hc : (c.refreshTimeoutWhenGet && c.timeout.isSome) = true) :
    get s k = ({ s with items := eraseKey s.items k ++
      [(k, { c with timeout := c.timeout.map (refreshHandle s.now) })] },
      some c.fileName) := by
  rw [get, h]
  simp only [hc, if_true]

theorem get_no_touch {s : CacheState} {k : String} {c : CacheItem}
    (h : lookupKey s.items k = some c)
    (hc : (c.refreshTimeoutWhenGet && c.timeout.isSome) = false) :
    get s k = (s, some c.fileName) := by
  rw [get, h]
  simp only [hc, Bool.false_eq_true, if_false]

theorem getStream_eq_get (s : CacheState) (k : String) :
    getStream s k = get s k := rfl

/-- C5 counterexample: in `staleHandleState` the entry `a` carries a
referenced but cancelled timer handle (`alive = false`, from rewriting a
timed entry with `timeout = 0`) and sits in the middle of the index
(`b, a, c`); the claim says a read of an entry without an armed timer
changes neither the timer nor the index order, yet `get "a"` moves the
entry to the end (`b, c, a`), because the code only tests truthiness of
`cache.timeout`, not whether the timer is armed. -/
theorem get_unarmed_timer_moves_entry :
    lookupKey staleHandleState.items "a" =
      some ⟨0, 1, some ⟨50, 50, false⟩, true, none⟩ ∧
    keysOf staleHandleState.items = ["b", "a", "c"] ∧
    keysOf (get staleHandleState "a").1.items = ["b", "c", "a"] := by decide

/-- C5 amended: on `get`/`getStream` of a present key whose
`refreshOnRead` flag is set and whose entry still references a timer
handle, the entry is moved to the end of the index; the handle itself is
re-armed to fire `duration` ms from the read only if it is still alive —
a cancelled handle stays dead (the entry record is unchanged) but the
index move happens anyway.  Entries without the flag or without a
referenced handle are left completely untouched, and `getStream` has
exactly the state effect of `get`. -/
theorem get_refresh_amended (s : CacheState) (k : String) (c : CacheItem)
    (t : TimerHandle) (hl : lookupKey s.items k = some c)
    (hflag : c.refreshTimeoutWhenGet = true) (ht : c.timeout = some t) :
    keysOf (get s k).1.items = keysOf (eraseKey s.items k) ++ [k] ∧
    (t.alive = true → lookupKey (get s k).1.items k =
      some { c with timeout := some { t with firesAt := s.now + t.duration } }) ∧
    (t.alive = false → lookupKey (get s k).1.items k = some c) ∧
    (get s k).1.currentSize = s.currentSize ∧
    (get s k).2 = some c.fileName ∧
    (∀ (s' : CacheState) (k' : String) (c' : CacheItem),
      lookupKey s'.items k' = some c' →
      (c'.refreshTimeoutWhenGet && c'.timeout.isSome) = false →
      (get s' k').1 = s') ∧
    (∀ (s' : CacheState) (k' : String), getStream s' k' = get s' k') := by
  have hc : (c.refreshTimeoutWhenGet && c.timeout.isSome) = true := by
    rw [hflag, ht]
    rfl
  rw [get_touch hl hc]
  refine ⟨?_, ?_, ?_, rfl, rfl, ?_, fun s' k' => rfl⟩
  · simp [keysOf]
  · intro halive
    rw [lookupKey_snoc_self _ _ _ lookupKey_eraseKey_self, ht]
    simp [refreshHandle, halive]
  · intro hdead
    rw [lookupKey_snoc_self _ _ _ lookupKey_eraseKey_self, ht]
    have hrt : refreshHandle s.now t = t := by
      rw [refreshHandle, if_neg (by rw [hdead]; simp)]
    have hmap : Option.map (refreshHandle s.now) (some t) = some t := by
      simp [hrt]
    rw [hmap, ← ht]
  · intro s' k' c' hl' hc'
    rw [get_no_touch hl' hc']

/-- Witness for C5's amended claim at `staleHandleState` and its dead
handle on `a`. -/
theorem get_refresh_amended_witness :
    keysOf (get staleHandleState "a").1.items =
      keysOf (eraseKey staleHandleState.items "a") ++ ["a"] ∧
    ((⟨50, 50, false⟩ : TimerHandle).alive = true →
      lookupKey (get staleHandleState "a").1.items "a" =
        some { (⟨0, 1, some ⟨50, 50, false⟩, true, none⟩ : CacheItem) with
          timeout := some { (⟨50, 50, false⟩ : TimerHandle) with
            firesAt := staleHandleState.now + 50 } }) ∧
    ((⟨50, 50, false⟩ : TimerHandle).alive = false →
      lookupKey (get staleHandleState "a").1.items "a" =
        some ⟨0, 1, some ⟨50, 50, false⟩, true, none⟩) ∧
    (get staleHandleState "a").1.currentSize = staleHandleState.currentSize ∧
    (get staleHandleState "a").2 = some 0 ∧
    (∀ (s' : CacheState) (k' : String) (c' : CacheItem),
      lookupKey s'.items k' = some c' →
      (c'.refreshTimeoutWhenGet && c'.timeout.isSome) = false →
      (get s' k').1 = s') ∧
    (∀ (s' : CacheState) (k' : String), getStream s' k' = get s' k') :=
  get_refresh_amended staleHandleState "a"
    ⟨0, 1, some ⟨50, 50, false⟩, true, none⟩ ⟨50, 50, false⟩
    (by decide) (by decide) (by decide)

/-! Unfolding and fold lemmas for the `setGroup` loop. -/

theorem setGroupGo_cons_ok {s s' : CacheState} (related : List String)
    (it : GroupItem) (rest : List GroupItem)
    (h : prepareWrite s it.key it.writeOk it.newSize it.timeout
      it.refreshTimeoutWhenGet (some related) = (s', true)) :
    setGroupGo related s (it :: rest) = setGroupGo related s' rest := by
  rw [setGroupGo, h]

theorem setGroupGo_cons_fail {s s' : CacheState} (related : List String)
    (it : GroupItem) (rest : List GroupItem)
    (h : prepareWrite s it.key it.writeOk it.newSize it.timeout
      it.refreshTimeoutWhenGet (some related) = (s', false)) :
    setGroupGo related s (it :: rest) = (s', false) := by
  rw [setGroupGo, h]

theorem setGroupGo_preserves (related : List String) :
    ∀ (items : List GroupItem) (s : CacheState) (k : String),
    (∀ it ∈ items, it.key ≠ k) →
    lookupKey (setGroupGo related s items).1.items k = lookupKey s.items k := by
  intro items
  induction items with
  | nil => intro s k _; rfl
  | cons it rest ih =>
    intro s k hk
    rcases hpw : prepareWrite s it.key it.writeOk it.newSize it.timeout
        it.refreshTimeoutWhenGet (some related) with ⟨s', b⟩
    have hother : lookupKey s'.items k = lookupKey s.items k := by
      have hh := prepareWrite_lookup_other s it.key it.writeOk it.newSize
        it.timeout it.refreshTimeoutWhenGet (some related) k
        (hk it (List.mem_cons_self _ _)).symm
      rw [hpw] at hh
      exact hh
    cases b
    · rw [setGroupGo_cons_fail related it rest hpw]
      exact hother
    · rw [setGroupGo_cons_ok related it rest hpw]
      rw [ih s' k (fun it' hit' => hk it' (List.mem_cons_of_mem _ hit')),
        hother]

theorem setGroupGo_all (related : List String) :
    ∀ (items : List GroupItem) (s : CacheState),
    (items.map GroupItem.key).Nodup →
    (∀ it ∈ items, it.writeOk = true) →
    ∀ it ∈ items, ∃ c,
      lookupKey (setGroupGo related s items).1.items it.key = some c ∧
      c.related = some related := by
  intro items
  induction items with
  | nil => intro s _ _ it hit; simp at hit
  | cons it0 rest ih =>
    intro s hn hok it hit
    have hw : it0.writeOk = true := hok it0 (List.mem_cons_self _ _)
    rcases hpw : prepareWrite s it0.key it0.writeOk it0.newSize it0.timeout
        it0.refreshTimeoutWhenGet (some related) with ⟨s', b⟩
    rw [hw] at hpw
    have hb : b = true := by
      have hf := prepareWrite_flag s it0.key it0.newSize it0.timeout
        it0.refreshTimeoutWhenGet (some related)
      rw [hpw] at hf
      exact hf
    subst hb
    have hpw' : prepareWrite s it0.key it0.writeOk it0.newSize it0.timeout
        it0.refreshTimeoutWhenGet (some related) = (s', true) := by
      rw [hw]; exact hpw
    rw [setGroupGo_cons_ok related it0 rest hpw']
    rw [List.map_cons, List.nodup_cons] at hn
    rcases List.mem_cons.mp hit with h1 | h1
    · subst h1
      have hkeys : ∀ it' ∈ rest, it'.key ≠ it.key := by
        intro it' hit' heq
        exact hn.1 (heq ▸ List.mem_map_of_mem GroupItem.key hit')
      rw [setGroupGo_preserves related rest s' it.key hkeys]
      obtain ⟨c, hc1, hc2, _, _⟩ := prepareWrite_lookup_self s it.key
        it.newSize it.timeout it.refreshTimeoutWhenGet (some related)
      rw [hpw] at hc1
      exact ⟨c, hc1, hc2⟩
    · exact ih s' hn.2 (fun it' hit' => hok it' (List.mem_cons_of_mem _ hit'))
        it h1

/-- C7 counterexample: after `setGroup` of the two keys `a`, `b`, member
`a` carries `related = ["a", "b"]` — the full batch key list *including
its own key* — not the other-keys-only list `["b"]` the claim asserts
(the code maps `items.map(item => item.key)` without excluding self). -/
theorem setGroup_related_includes_self :
    (∃ c, lookupKey plainGroup.items "a" = some c ∧
      c.related = some ["a", "b"] ∧ "a" ∈ c.related.getD []) ∧
    ¬ (∃ c, lookupKey plainGroup.items "a" = some c ∧
      c.related = some ["b"]) := by decide

/-- C7 amended: every written member of a `setGroup` batch (distinct keys,
all writers succeeding) gets `relatedKeys` equal to the *full* batch key
list, its own key included; deleting any single member still deletes every
member of the batch, the self-entry in the list being a harmless no-op by
the time it is cascaded. -/
theorem setGroup_related_amended (s : CacheState) (items : List GroupItem)
    (hn : (items.map GroupItem.key).Nodup)
    (hok : ∀ it ∈ items, it.writeOk = true) :
    (∀ it ∈ items, ∃ c,
      lookupKey (setGroup s items).1.items it.key = some c ∧
      c.related = some (items.map GroupItem.key)) ∧
    (∀ j ∈ items.map GroupItem.key, ∀ i ∈ items.map GroupItem.key,
      lookupKey ((delete allOk (setGroup s items).1 j).1).items i = none) := by
  have hall := setGroupGo_all (items.map GroupItem.key) items s hn hok
  refine ⟨hall, ?_⟩
  intro j hj i hi
  obtain ⟨itj, hitj, hkeyj⟩ := List.mem_map.mp hj
  obtain ⟨c, hc1, hc2⟩ := hall itj hitj
  rw [hkeyj] at hc1
  rw [delete, setGroup, runDelete_cons_del_some allOk [] hc1]
  apply runDelete_del_mem_absent
  apply List.mem_append_left
  apply List.mem_map_of_mem
  rw [relList, hc2]
  exact hi

/-- Witness for C7's amended claim on the concrete two-member batch. -/
theorem setGroup_related_amended_witness :
    (∀ it ∈ ([⟨"a", true, 1, 0, false⟩, ⟨"b", true, 1, 0, false⟩] :
        List GroupItem), ∃ c,
      lookupKey (setGroup initialState
        [⟨"a", true, 1, 0, false⟩, ⟨"b", true, 1, 0, false⟩]).1.items
        it.key = some c ∧
      c.related = some (([⟨"a", true, 1, 0, false⟩,
        ⟨"b", true, 1, 0, false⟩] : List GroupItem).map GroupItem.key)) ∧
    (∀ j ∈ (([⟨"a", true, 1, 0, false⟩, ⟨"b", true, 1, 0, false⟩] :
        List GroupItem).map GroupItem.key),
      ∀ i ∈ (([⟨"a", true, 1, 0, false⟩, ⟨"b", true, 1, 0, false⟩] :
        List GroupItem).map GroupItem.key),
      lookupKey ((delete allOk (setGroup initialState
        [⟨"a", true, 1, 0, false⟩, ⟨"b", true, 1, 0, false⟩]).1 j).1).items
        i = none) :=
  setGroup_related_amended initialState
    [⟨"a", true, 1, 0, false⟩, ⟨"b", true, 1, 0, false⟩]
    (by decide) (by decide)

/-! Lemmas for the file-identifier invariant. -/

theorem pairwise_lt_snoc {l : List Nat} {a : Nat}
    (h : List.Pairwise (· < ·) l) (ha : ∀ x ∈ l, x < a) :
    List.Pairwise (· < ·) (l ++ [a]) := by
  rw [List.pairwise_append]
  refine ⟨h, List.pairwise_singleton _ _, ?_⟩
  intro x hx y hy
  simp only [List.mem_singleton] at hy
  subst hy
  exact ha x hx

theorem mem_clearEntryTimer {l : List (String × CacheItem)} {k : String}
    {e' : String × CacheItem} (h : e' ∈ clearEntryTimer l k) :
    ∃ e ∈ l, e'.2.fileName = e.2.fileName := by
  rw [clearEntryTimer] at h
  obtain ⟨e, he, hfe⟩ := List.mem_map.mp h
  refine ⟨e, he, ?_⟩
  by_cases hek : e.1 = k <;> simp [← hfe, hek, clearTimer]

/-- C9: within one cache instance the file-identifier counter is strictly
increasing — the assignment history is a strictly increasing sequence, a
write to an absent key consumes the counter (receiving an identifier
strictly above every previously assigned one) and bumps it, a write to a
present key reuses that entry's identifier and leaves the counter and the
history untouched, and `delete` never returns an identifier to the pool,
so an identifier is never reassigned even after its entry is deleted. -/
theorem fileId_monotonic_correct (s : CacheState) (key : String)
    (writeOk : Bool) (newSize timeout : Nat) (refresh : Bool)
    (related : Option (List String)) (hInv : fileIdInv s) :
    fileIdInv (prepareWrite s key writeOk newSize timeout refresh related).1 ∧
    (lookupKey s.items key = none →
      (prepareWrite s key writeOk newSize timeout refresh
        related).1.fileNameIndex = s.fileNameIndex + 1 ∧
      (prepareWrite s key writeOk newSize timeout refresh
        related).1.assignedLog = s.assignedLog ++ [s.fileNameIndex] ∧
      (∀ x ∈ s.assignedLog, x < s.fileNameIndex) ∧
      (writeOk = true → ∃ c',
        lookupKey (prepareWrite s key writeOk newSize timeout refresh
          related).1.items key = some c' ∧
        c'.fileName = s.fileNameIndex)) ∧
    (∀ c, lookupKey s.items key = some c →
      (prepareWrite s key writeOk newSize timeout refresh
        related).1.fileNameIndex = s.fileNameIndex ∧
      (prepareWrite s key writeOk newSize timeout refresh
        related).1.assignedLog = s.assignedLog ∧
      (writeOk = true → ∃ c',
        lookupKey (prepareWrite s key writeOk newSize timeout refresh
          related).1.items key = some c' ∧
        c'.fileName = c.fileName)) ∧
    (∀ (ok : Nat → Bool) (k' : String),
      (delete ok s k').1.fileNameIndex = s.fileNameIndex ∧
      (delete ok s k').1.assignedLog = s.assignedLog ∧
      fileIdInv (delete ok s k').1) := by
  obtain ⟨hchain, hbound, hmemb⟩ := hInv
  have hdel : ∀ (ok : Nat → Bool) (k' : String),
      (delete ok s k').1.fileNameIndex = s.fileNameIndex ∧
      (delete ok s k').1.assignedLog = s.assignedLog ∧
      fileIdInv (delete ok s k').1 := by
    intro ok k'
    obtain ⟨hc1, hc2, _⟩ := runDelete_const ok s [DelTask.del k']
    refine ⟨hc1, hc2, ?_⟩
    rw [fileIdInv, delete] at *
    rw [hc1, hc2]
    refine ⟨hchain, hbound, ?_⟩
    intro e he
    exact hmemb e ((runDelete_sublist ok s [DelTask.del k']).subset he)
  rw [prepareWrite]
  cases hl : lookupKey s.items key with
  | none =>
    have hlog : ∀ x ∈ s.assignedLog ++ [s.fileNameIndex],
        x < s.fileNameIndex + 1 := by
      intro x hx
      rcases List.mem_append.mp hx with h1 | h1
      · have := hbound x h1
        omega
      · simp only [List.mem_singleton] at h1
        omega
    have hchain' : List.Pairwise (· < ·)
        (s.assignedLog ++ [s.fileNameIndex]) :=
      pairwise_lt_snoc hchain hbound
    cases writeOk
    · refine ⟨⟨hchain', hlog, ?_⟩, ?_, ?_, hdel⟩
      · intro e he
        exact List.mem_append_left _ (hmemb e he)
      · intro _
        refine ⟨rfl, rfl, hbound, ?_⟩
        intro hfalse
        cases hfalse
      · intro c hc
        exact Option.noConfusion hc
    · refine ⟨⟨hchain', hlog, ?_⟩, ?_, ?_, hdel⟩
      · intro e he
        rcases List.mem_append.mp he with h1 | h1
        · exact List.mem_append_left _ (hmemb e h1)
        · simp only [List.mem_singleton] at h1
          rw [h1]
          exact List.mem_append_right _ (List.mem_singleton.mpr rfl)
      · intro _
        refine ⟨rfl, rfl, hbound, ?_⟩
        intro _
        exact ⟨_, lookupKey_snoc_self _ _ _ hl, rfl⟩
      · intro c hc
        exact Option.noConfusion hc
  | some c =>
    have hcmem : c.fileName ∈ s.assignedLog :=
      hmemb (key, c) (lookupKey_mem hl)
    cases writeOk
    · refine ⟨⟨hchain, hbound, ?_⟩, ?_, ?_, hdel⟩
      · intro e he
        obtain ⟨e0, he0, hf0⟩ := mem_clearEntryTimer he
        rw [hf0]
        exact hmemb e0 he0
      · intro hfalse
        exact Option.noConfusion hfalse
      · intro c' hc'
        exact ⟨rfl, rfl, fun hfalse => Bool.noConfusion hfalse⟩
    · refine ⟨⟨hchain, hbound, ?_⟩, ?_, ?_, hdel⟩
      · intro e he
        rcases List.mem_append.mp he with h1 | h1
        · obtain ⟨e0, he0, hf0⟩ := mem_clearEntryTimer
            ((eraseKey_sublist _ _).subset h1)
          rw [hf0]
          exact hmemb e0 he0
        · simp only [List.mem_singleton] at h1
          rw [h1]
          exact hcmem
      · intro hfalse
        exact Option.noConfusion hfalse
      · intro c' hc'
        rw [Option.some.injEq] at hc'
        subst hc'
        refine ⟨rfl, rfl, ?_⟩
        intro _
        exact ⟨_, lookupKey_snoc_self _ _ _ lookupKey_eraseKey_self, rfl⟩

/-- Witness for C9: writing the absent key `zzz` into the two-entry cache
consumes counter value 2 and bumps the counter to 3. -/
theorem fileId_monotonic_correct_witness :
    fileIdInv (prepareWrite twoEntries "zzz" true 7 0 false none).1 ∧
    (lookupKey twoEntries.items "zzz" = none →
      (prepareWrite twoEntries "zzz" true 7 0 false none).1.fileNameIndex =
        twoEntries.fileNameIndex + 1 ∧
      (prepareWrite twoEntries "zzz" true 7 0 false none).1.assignedLog =
        twoEntries.assignedLog ++ [twoEntries.fileNameIndex] ∧
      (∀ x ∈ twoEntries.assignedLog, x < twoEntries.fileNameIndex) ∧
      (true = true → ∃ c',
        lookupKey (prepareWrite twoEntries "zzz" true 7 0 false
          none).1.items "zzz" = some c' ∧
        c'.fileName = twoEntries.fileNameIndex)) ∧
    (∀ c, lookupKey twoEntries.items "zzz" = some c →
      (prepareWrite twoEntries "zzz" true 7 0 false none).1.fileNameIndex =
        twoEntries.fileNameIndex ∧
      (prepareWrite twoEntries "zzz" true 7 0 false none).1.assignedLog =
        twoEntries.assignedLog ∧
      (true = true → ∃ c',
        lookupKey (prepareWrite twoEntries "zzz" true 7 0 false
          none).1.items "zzz" = some c' ∧
        c'.fileName = c.fileName)) ∧
    (∀ (ok : Nat → Bool) (k' : String),
      (delete ok twoEntries k').1.fileNameIndex = twoEntries.fileNameIndex ∧
      (delete ok twoEntries k').1.assignedLog = twoEntries.assignedLog ∧
      fileIdInv (delete ok twoEntries k').1) :=
  fileId_monotonic_correct twoEntries "zzz" true 7 0 false none (by decide)

/-- C1: under the absolute ceiling policy (`volumeUpLimit > 0`, which the
constructor prefers over any rate policy), a tick with
`currentSize ≤ upLimit` does nothing; a tick with `currentSize > upLimit`
walks the index oldest-first and leaves
`currentSize ≤ upLimit * (1 - cleanAmount)` (with `cleanAmount` clamped to
at most 1, defaulting to 0.1); the walk stops as soon as the target is
reached — a state at or below the target is never evicted from — and with
no related-key groups the surviving entries are exactly a suffix of the
index (the deleted ones a prefix, oldest first). -/
theorem evictionTickLimit_correct (volumeUpLimit : ℚ)
    (cleanAmountOpt : Option ℚ) (s : CacheState) (hinv : sizeInv s)
    (hn : nodupKeys s.items) (hup : 0 < volumeUpLimit) :
    ((s.currentSize : ℚ) ≤ volumeUpLimit →
      evictionTickLimit allOk volumeUpLimit cleanAmountOpt s = s) ∧
    (volumeUpLimit < (s.currentSize : ℚ) →
      ((evictionTickLimit allOk volumeUpLimit cleanAmountOpt
          s).currentSize : ℚ) ≤
        volumeUpLimit * (1 - min (cleanAmountOpt.getD (1 / 10)) 1)) ∧
    (∀ (keys : List String) (s' : CacheState),
      (s'.currentSize : ℚ) ≤
        volumeUpLimit * (1 - min (cleanAmountOpt.getD (1 / 10)) 1) →
      evictWalk allOk
        (volumeUpLimit * (1 - min (cleanAmountOpt.getD (1 / 10)) 1))
        s' keys = s') ∧
    (allRelatedEmpty s.items →
      ∃ p, s.items = p ++
        (evictionTickLimit allOk volumeUpLimit cleanAmountOpt s).items) ∧
    (∀ rateOpt, choosePolicy (some volumeUpLimit) rateOpt =
      EvictionPolicy.limit volumeUpLimit) := by
  have hdown : (0 : ℚ) ≤
      volumeUpLimit * (1 - min (cleanAmountOpt.getD (1 / 10)) 1) := by
    have h1 : min (cleanAmountOpt.getD (1 / 10)) 1 ≤ 1 := min_le_right _ _
    have h2 : (0 : ℚ) ≤ 1 - min (cleanAmountOpt.getD (1 / 10)) 1 := by
      linarith
    exact mul_nonneg (le_of_lt hup) h2
  refine ⟨?_, ?_, ?_, ?_, ?_⟩
  · intro hle
    rw [evictionTickLimit]
    simp only [if_neg (not_lt.mpr hle)]
  · intro hgt
    rw [evictionTickLimit]
    simp only [if_pos hgt]
    rcases evictWalk_target
        (volumeUpLimit * (1 - min (cleanAmountOpt.getD (1 / 10)) 1))
        (keysOf s.items) s hinv hn (fun x hx => hx) with h | h
    · exact h
    · have hsi := (evictWalk_inv
        (volumeUpLimit * (1 - min (cleanAmountOpt.getD (1 / 10)) 1))
        (keysOf s.items) s hinv hn).1
      rw [sizeInv, h, sizeSum_nil] at hsi
      rw [hsi]
      exact_mod_cast hdown
  · intro keys s' hle
    exact evictWalk_stop allOk _ keys s' hle
  · intro hrel
    rw [evictionTickLimit]
    by_cases hgt : volumeUpLimit < (s.currentSize : ℚ)
    · simp only [if_pos hgt]
      exact evictWalk_self_prefix _ s.items.length s (le_refl _) hrel hn
    · simp only [if_neg hgt]
      exact ⟨[], rfl⟩
  · intro rateOpt
    rw [choosePolicy]
    simp only [Option.getD_some]
    rw [if_pos hup]

/-- Witness for C1: the two-entry cache (5 bytes) with
`volumeUpLimit = 4`, `cleanAmount = 1/2`. -/
theorem evictionTickLimit_correct_witness :
    (((twoEntries.currentSize : ℚ)) ≤ 4 →
      evictionTickLimit allOk 4 (some (1 / 2)) twoEntries = twoEntries) ∧
    ((4 : ℚ) < (twoEntries.currentSize : ℚ) →
      ((evictionTickLimit allOk 4 (some (1 / 2))
          twoEntries).currentSize : ℚ) ≤
        4 * (1 - min ((some ((1 : ℚ) / 2)).getD (1 / 10)) 1)) ∧
    (∀ (keys : List String) (s' : CacheState),
      (s'.currentSize : ℚ) ≤
        4 * (1 - min ((some ((1 : ℚ) / 2)).getD (1 / 10)) 1) →
      evictWalk allOk
        (4 * (1 - min ((some ((1 : ℚ) / 2)).getD (1 / 10)) 1))
        s' keys = s') ∧
    (allRelatedEmpty twoEntries.items →
      ∃ p, twoEntries.items = p ++
        (evictionTickLimit allOk 4 (some (1 / 2)) twoEntries).items) ∧
    (∀ rateOpt, choosePolicy (some 4) rateOpt = EvictionPolicy.limit 4) :=
  evictionTickLimit_correct 4 (some (1 / 2)) twoEntries (by decide)
    (by decide) (by norm_num)

/-- C4: under the available-space-ratio policy, a tick whose disk-usage
probe fails leaves the cache unchanged (failure is only logged); a tick
with `available / total ≥ 1 - upLimitRate` evicts nothing; a triggered
tick walks oldest-first until
`currentSize ≤ currentSize_at_tick_start - total * upLimitRate *
cleanAmount` (or the index is exhausted); with any removal-failure
oracle the tick still returns a state whose index is a sublist of the
old one (a deletion failure aborts only the walk, not the cache), and
the engine simply applies the next tick on the next interval. -/
theorem evictionTickRate_correct (volumeUpLimitRate : ℚ)
    (cleanAmountOpt : Option ℚ) (s : CacheState) (hinv : sizeInv s)
    (hn : nodupKeys s.items) :
    (∀ ok : Nat → Bool,
      evictionTickRate ok none volumeUpLimitRate cleanAmountOpt s = s) ∧
    (∀ (ok : Nat → Bool) (total available : ℚ),
      ¬ (available / total < 1 - min volumeUpLimitRate 1) →
      evictionTickRate ok (some (total, available)) volumeUpLimitRate
        cleanAmountOpt s = s) ∧
    (∀ total available : ℚ,
      available / total < 1 - min volumeUpLimitRate 1 →
      (((evictionTickRate allOk (some (total, available)) volumeUpLimitRate
            cleanAmountOpt s).currentSize : ℚ) ≤
          (s.currentSize : ℚ) - total * min volumeUpLimitRate 1 *
            min (cleanAmountOpt.getD (1 / 10)) 1 ∨
        (evictionTickRate allOk (some (total, available)) volumeUpLimitRate
          cleanAmountOpt s).items = [])) ∧
    (∀ (ok : Nat → Bool) (probe : Option (ℚ × ℚ)),
      List.Sublist
        (evictionTickRate ok probe volumeUpLimitRate cleanAmountOpt s).items
        s.items) ∧
    (∀ (probe : Option (ℚ × ℚ)) (ok : Nat → Bool)
      (rest : List (Option (ℚ × ℚ) × (Nat → Bool))),
      engineRateRun volumeUpLimitRate cleanAmountOpt s
          ((probe, ok) :: rest) =
        engineRateRun volumeUpLimitRate cleanAmountOpt
          (evictionTickRate ok probe volumeUpLimitRate cleanAmountOpt s)
          rest) := by
  refine ⟨fun ok => rfl, ?_, ?_, ?_, fun probe ok rest => rfl⟩
  · intro ok total available hge
    rw [evictionTickRate]
    simp only [if_neg hge]
  · intro total available hlt
    rw [evictionTickRate]
    simp only [if_pos hlt]
    exact evictWalk_target _ (keysOf s.items) s hinv hn (fun x hx => hx)
  · intro ok probe
    cases probe with
    | none => exact List.Sublist.refl _
    | some u =>
      obtain ⟨total, available⟩ := u
      rw [evictionTickRate]
      by_cases hlt : available / total < 1 - min volumeUpLimitRate 1
      · simp only [if_pos hlt]
        exact evictWalk_sublist ok _ (keysOf s.items) s
      · simp only [if_neg hlt]
        exact List.Sublist.refl _

/-- Witness for C4: the two-entry cache with `upLimitRate = 1/2`,
default `cleanAmount`, on a volume of 8 total / 2 available bytes. -/
theorem evictionTickRate_correct_witness :
    (∀ ok : Nat → Bool,
      evictionTickRate ok none (1 / 2) none twoEntries = twoEntries) ∧
    (∀ (ok : Nat → Bool) (total available : ℚ),
      ¬ (available / total < 1 - min ((1 : ℚ) / 2) 1) →
      evictionTickRate ok (some (total, available)) (1 / 2) none
        twoEntries = twoEntries) ∧
    (∀ total available : ℚ,
      available / total < 1 - min ((1 : ℚ) / 2) 1 →
      (((evictionTickRate allOk (some (total, available)) (1 / 2) none
            twoEntries).currentSize : ℚ) ≤
          (twoEntries.currentSize : ℚ) - total * min ((1 : ℚ) / 2) 1 *
            min ((none : Option ℚ).getD (1 / 10)) 1 ∨
        (evictionTickRate allOk (some (total, available)) (1 / 2) none
          twoEntries).items = [])) ∧
    (∀ (ok : Nat → Bool) (probe : Option (ℚ × ℚ)),
      List.Sublist
        (evictionTickRate ok probe (1 / 2) none twoEntries).items
        twoEntries.items) ∧
    (∀ (probe : Option (ℚ × ℚ)) (ok : Nat → Bool)
      (rest : List (Option (ℚ × ℚ) × (Nat → Bool))),
      engineRateRun (1 / 2) none twoEntries ((probe, ok) :: rest) =
        engineRateRun (1 / 2) none
          (evictionTickRate ok probe (1 / 2) none twoEntries) rest) :=
  evictionTickRate_correct (1 / 2) none twoEntries (by decide) (by decide)

/-- C2: deleting a present key first unindexes the triggering entry (its
timer handle going with it), then recursively deletes its related keys,
and only afterwards removes its own artifact and decrements
`currentSize` — the removal log ends with the triggering entry's
identifier after the cascade's removals; the cascade drops a
duplicate-free set of entries (`dropped`): the surviving index plus
`dropped` is a permutation of the index minus the trigger, the removal
log gains exactly one record per dropped entry, and `currentSize` drops
by exactly the sum of the dropped sizes plus the trigger's size — each
member once, whichever member the cascade starts from; deleting an
absent key is a no-op (which is what terminates symmetric groups). -/
theorem delete_cascade_correct (s : CacheState) (k : String) (c : CacheItem)
    (hn : nodupKeys s.items) (hl : lookupKey s.items k = some c) :
    ∃ (dropped : List (String × CacheItem)) (casc : List Nat),
      (delete allOk s k).2 = true ∧
      (delete allOk s k).1.removed = s.removed ++ casc ++ [c.fileName] ∧
      casc.Perm (dropped.map (fun e => e.2.fileName)) ∧
      (eraseKey s.items k).Perm ((delete allOk s k).1.items ++ dropped) ∧
      (delete allOk s k).1.currentSize =
        s.currentSize - sizeSum dropped - (c.fileSize : Int) ∧
      nodupKeys ((delete allOk s k).1.items ++ dropped) ∧
      lookupKey (delete allOk s k).1.items k = none ∧
      (∀ (s' : CacheState) (k' : String), lookupKey s'.items k' = none →
        delete allOk s' k' = (s', true)) := by
  have hstep : delete allOk s k =
      runDelete allOk { s with items := eraseKey s.items k }
        ((relList c).map DelTask.del ++ (DelTask.fin c :: [])) := by
    rw [delete, runDelete_cons_del_some allOk [] hl]
  obtain ⟨d, L, h1, h2, h3, h4⟩ :=
    runDelete_accounting { s with items := eraseKey s.items k }
      ((relList c).map DelTask.del) (nodupKeys_eraseKey hn)
  have hflag1 : (runDelete allOk { s with items := eraseKey s.items k }
      ((relList c).map DelTask.del)).2 = true := runDelete_flag_allOk _ _
  have happ := runDelete_append allOk { s with items := eraseKey s.items k }
    ((relList c).map DelTask.del) [DelTask.fin c] hflag1
  have hdel : delete allOk s k =
      ({ (runDelete allOk { s with items := eraseKey s.items k }
            ((relList c).map DelTask.del)).1 with
          removed := (runDelete allOk { s with items := eraseKey s.items k }
            ((relList c).map DelTask.del)).1.removed ++ [c.fileName]
          currentSize := (runDelete allOk
            { s with items := eraseKey s.items k }
            ((relList c).map DelTask.del)).1.currentSize -
              (c.fileSize : Int) },
        true) := by
    rw [hstep, happ, runDelete_cons_fin_ok allOk _ [] rfl, runDelete_nil]
  have hs₁rem : ({ s with items := eraseKey s.items k } :
      CacheState).removed = s.removed := rfl
  have hs₁cur : ({ s with items := eraseKey s.items k } :
      CacheState).currentSize = s.currentSize := rfl
  rw [hs₁rem] at h2
  rw [hs₁cur] at h4
  rw [pendFinish_map_del] at h3 h4
  rw [sizeSumC_nil] at h4
  refine ⟨d, L, ?_, ?_, ?_, ?_, ?_, ?_, delete_lookup_self s k,
    fun s' k' h' => delete_absent allOk s' k' h'⟩
  · rw [hdel]
  · simp only [hdel]
    rw [h2, List.append_assoc]
  · simpa using h3
  · simp only [hdel]
    exact h1
  · simp only [hdel]
    rw [h4]
    omega
  · simp only [hdel]
    exact ((h1.map Prod.fst).nodup_iff).mp (nodupKeys_eraseKey hn)

/-- Witness for C2 on the concrete two-member group: deleting `a`
cascades to `b`, each artifact removed once, `a`'s own artifact last. -/
theorem delete_cascade_correct_witness :
    ∃ (dropped : List (String × CacheItem)) (casc : List Nat),
      (delete allOk plainGroup "a").2 = true ∧
      (delete allOk plainGroup "a").1.removed =
        plainGroup.removed ++ casc ++ [0] ∧
      casc.Perm (dropped.map (fun e => e.2.fileName)) ∧
      (eraseKey plainGroup.items "a").Perm
        ((delete allOk plainGroup "a").1.items ++ dropped) ∧
      (delete allOk plainGroup "a").1.currentSize =
        plainGroup.currentSize - sizeSum dropped - (1 : Int) ∧
      nodupKeys ((delete allOk plainGroup "a").1.items ++ dropped) ∧
      lookupKey (delete allOk plainGroup "a").1.items "a" = none ∧
      (∀ (s' : CacheState) (k' : String), lookupKey s'.items k' = none →
        delete allOk s' k' = (s', true)) :=
  delete_cascade_correct plainGroup "a"
    ⟨0, 1, none, false, some ["a", "b"]⟩ (by decide) (by decide)

/-! Preservation lemmas for the read/time events of C6. -/

theorem get_state_preserve (k : String) (c : CacheItem) (s : CacheState)
    (k' : String) (hn : nodupKeys s.items)
    (hl : lookupKey s.items k = some c) (hoff : timerOff c = true)
    (href : noOtherRelatedRef s.items k) :
    nodupKeys (get s k').1.items ∧
    lookupKey (get s k').1.items k = some c ∧
    noOtherRelatedRef (get s k').1.items k := by
  cases hl' : lookupKey s.items k' with
  | none => rw [get_absent hl']; exact ⟨hn, hl, href⟩
  | some c' =>
    cases hc' : (c'.refreshTimeoutWhenGet && c'.timeout.isSome) with
    | false => rw [get_no_touch hl' hc']; exact ⟨hn, hl, href⟩
    | true =>
      rw [get_touch hl' hc']
      refine ⟨nodupKeys_erase_snoc k' _ hn, ?_, ?_⟩
      · by_cases hkk : k = k'
        · subst hkk
          rw [hl] at hl'
          rw [Option.some.injEq] at hl'
          subst hl'
          rw [lookupKey_snoc_self _ _ _ lookupKey_eraseKey_self]
          cases hts : c.timeout with
          | none =>
            rw [hts] at hc'
            simp at hc'
          | some t =>
            have hdead : t.alive = false := by
              rw [timerOff, hts] at hoff
              simpa using hoff
            have hrt : refreshHandle s.now t = t := by
              rw [refreshHandle, if_neg (by rw [hdead]; simp)]
            have hmap : Option.map (refreshHandle s.now) (some t) = some t := by
              simp [hrt]
            rw [hmap, ← hts]
        · rw [lookupKey_snoc_ne _ _ _ _ hkk, lookupKey_eraseKey_ne hkk]
          exact hl
      · intro e he hne
        rcases List.mem_append.mp he with h1 | h1
        · exact href e ((eraseKey_sublist _ _).subset h1) hne
        · simp only [List.mem_singleton] at h1
          rw [h1] at hne ⊢
          exact href (k', c') (lookupKey_mem hl') hne

theorem fire_state_preserve (ok : Nat → Bool) (k : String) (c : CacheItem)
    (s : CacheState) (k' : String) (hn : nodupKeys s.items)
    (hl : lookupKey s.items k = some c) (hoff : timerOff c = true)
    (href : noOtherRelatedRef s.items k) :
    nodupKeys (fireTimer ok s k').items ∧
    lookupKey (fireTimer ok s k').items k = some c ∧
    noOtherRelatedRef (fireTimer ok s k').items k := by
  cases hl' : lookupKey s.items k' with
  | none => simp only [fireTimer, hl']; exact ⟨hn, hl, href⟩
  | some c' =>
    cases hts : c'.timeout with
    | none => simp only [fireTimer, hl', hts]; exact ⟨hn, hl, href⟩
    | some t =>
      simp only [fireTimer, hl', hts]
      by_cases hb : (t.alive && decide (t.firesAt ≤ s.now)) = true
      · rw [if_pos hb]
        by_cases hkk : k' = k
        · subst hkk
          rw [hl] at hl'
          rw [Option.some.injEq] at hl'
          subst hl'
          rw [timerOff, hts] at hoff
          have hdead : t.alive = false := by simpa using hoff
          rw [hdead] at hb
          simp at hb
        · refine ⟨delete_nodup ok s k' hn, ?_, ?_⟩
          · rw [delete]
            rw [runDelete_preserve_key ok s [DelTask.del k'] k href ?_]
            · exact hl
            · intro j hj
              simp only [List.mem_singleton] at hj
              obtain rfl : j = k' := by injection hj
              exact hkk
          · exact noOtherRelatedRef_sublist (delete_sublist ok s k') href
      · rw [if_neg hb]
        exact ⟨hn, hl, href⟩

/-- C6 counterexample: `a` is written through `setGroup` with
`timeout = 0` (its entry has no timer at all), its group partner `b`
expires after 50 ms; 50 ms of elapsed time and `b`'s own timer firing —
no explicit delete, eviction, `empty` or `destroy` — remove `a` through
the related-keys cascade, so "never removed without an explicit delete,
eviction, empty, or destroy" is false as universally stated. -/
theorem timeout_zero_cascade_removal :
    lookupKey groupWithTimer.items "a" =
      some ⟨0, 1, none, false, some ["a", "b"]⟩ ∧
    has (applyOps allOk groupWithTimer [Op.advance 50, Op.fire "b"]) "a" =
      false := by
  constructor
  · decide
  · simp [applyOps, applyOp, advanceTime, fireTimer, delete, runDelete,
      groupWithTimer, setGroup, setGroupGo, prepareWrite, lookupKey,
      eraseKey, relList, has, initialState, allOk]

/-- C6 amended: an entry whose most recent successful write used
`timeout = 0` (its timer handle absent or cancelled) and whose key is
listed in no *other* entry's `relatedKeys` — its own record may well
list its key, as every `setGroup` write does — is never removed, and
its record never changes, under any sequence of `get`/`getStream`
calls, elapsed time and timer firings, with any removal oracle; in
particular its own dead handle can never fire and a read never re-arms
it. -/
theorem timeout_zero_amended (k : String) (c : CacheItem) : ∀
    (ops : List Op) (ok : Nat → Bool) (s : CacheState),
    nodupKeys s.items → lookupKey s.items k = some c →
    timerOff c = true → noOtherRelatedRef s.items k →
    lookupKey (applyOps ok s ops).items k = some c := by
  intro ops
  induction ops with
  | nil => intro ok s _ hl _ _; exact hl
  | cons op rest ih =>
    intro ok s hn hl hoff href
    rw [applyOps]
    cases op with
    | get k' =>
      obtain ⟨h1, h2, h3⟩ := get_state_preserve k c s k' hn hl hoff href
      exact ih ok _ h1 h2 hoff h3
    | getStream k' =>
      have hgs : applyOp ok s (Op.getStream k') = (get s k').1 := by
        rw [applyOp, getStream_eq_get]
      rw [hgs]
      obtain ⟨h1, h2, h3⟩ := get_state_preserve k c s k' hn hl hoff href
      exact ih ok _ h1 h2 hoff h3
    | advance ms => exact ih ok _ hn hl hoff href
    | fire k' =>
      obtain ⟨h1, h2, h3⟩ := fire_state_preserve ok k c s k' hn hl hoff href
      exact ih ok _ h1 h2 hoff h3

/-- Witness for C6's amended claim: the entry `a` carries a cancelled
handle, the refresh-on-read flag and a self-inclusive related list
`[a, b]` from a `setGroup` whose partner `b` was since rewritten plain;
reads, 100 ms of elapsed time and firing attempts on both keys leave
`a`'s record intact. -/
theorem timeout_zero_amended_witness :
    lookupKey (applyOps allOk dissolvedGroup
        [Op.get "a", Op.advance 100, Op.fire "b", Op.fire "a",
          Op.getStream "a"]).items
      "a" = some ⟨0, 1, some ⟨50, 50, false⟩, true, some ["a", "b"]⟩ :=
  timeout_zero_amended "a" ⟨0, 1, some ⟨50, 50, false⟩, true, some ["a", "b"]⟩
    [Op.get "a", Op.advance 100, Op.fire "b", Op.fire "a", Op.getStream "a"]
    allOk dissolvedGroup (by decide) (by decide) (by decide) (by decide)

end DiskCache
